import Mathlib

/-!
# go-linkshort: URL store, click store and short-code generation

A shallow embedding of the storage backends and of the short-code generator of
the two services (`url-service`, `analytics-service`), followed by theorems
about them.

Conventions of the embedding.

* Go strings are Lean `String`s (sequences of Unicode code points).  Every
  string reaching `normalizeURL` comes out of `encoding/json`, which yields
  valid UTF-8, and the short codes are ASCII.
* A Go `map[string]V` is an association list with at most one entry per key
  (`GoMap`); the position of an entry stands for the unspecified iteration
  order of the Go map.
* Records held behind pointers are modelled by value: the stores below never
  change a record after it has been stored.
* `time.Time` is a number of nanoseconds, `0` being the zero instant;
  `time.Now()` and `uuid.New().String()` are inputs of the operations.
* A Go `error` result is `Except Error _`; a nil slice is `none`, a non-nil
  slice is `some _`.
-/

/-! ## Shared runtime model -/

/-- Go error values: the sentinel `redis.Nil` and errors made from a message. -/
inductive Error where
  | RedisNil : Error
  | New (msg : String) : Error
deriving DecidableEq, Repr

/-- Instants of time (`time.Time`), in nanoseconds; `0` is the zero instant. -/
abbrev Time := Nat

/-- Go `t.IsZero()`. -/
def Time.IsZero (t : Time) : Bool := t == 0

/-- A Go `map[string]V`: association list, at most one entry per key. -/
abbrev GoMap (V : Type) := List (String × V)

namespace GoMap

/-- Go `v, ok := m[k]`: the entry stored under `k`, if any. -/
def get {V : Type} : GoMap V → String → Option V
  | [], _ => none
  | (k1, v) :: rest, k => if k1 = k then some v else get rest k

/-- Go `m[k] = v`: overwrite the entry under `k`, or add one. -/
def set {V : Type} : GoMap V → String → V → GoMap V
  | [], k, v => [(k, v)]
  | (k1, v1) :: rest, k, v => if k1 = k then (k, v) :: rest else (k1, v1) :: set rest k v

/-- The keys of the map, in iteration order. -/
def keys {V : Type} (m : GoMap V) : List String := m.map Prod.fst

end GoMap

namespace strings

/-- Go `unicode.IsSpace`: the Latin-1 spaces, then the `White_Space` table. -/
def isSpace (r : Char) : Bool :=
  let n := r.toNat
  if n ≤ 0xFF then
    n == 0x09 || n == 0x0A || n == 0x0B || n == 0x0C || n == 0x0D || n == 0x20
      || n == 0x85 || n == 0xA0
  else
    n == 0x1680 || (0x2000 ≤ n && n ≤ 0x200A) || n == 0x2028 || n == 0x2029
      || n == 0x202F || n == 0x205F || n == 0x3000

/-- Go `strings.TrimSpace`: drop leading, then trailing white space. -/
def TrimSpace (s : String) : String :=
  ⟨(s.data.dropWhile isSpace).rdropWhile isSpace⟩

/-- Go `strings.HasPrefix`. -/
def HasPrefix (s pre : String) : Bool := pre.data.isPrefixOf s.data

end strings

namespace rand

/-- The state of `math/rand` after seeding: the raw draws still to come. -/
abbrev Source := Nat → Nat

/-- Go `rand.Intn(n)`: the next draw, reduced to `[0, n)`, and the source after it. -/
def Intn (n : Nat) (src : Source) : Nat × Source :=
  (src 0 % n, fun i => src (i + 1))

end rand

namespace json

/-- The `encoding/json` functions for a record type, taken as given:
`json.Marshal` and `json.Unmarshal`, each of which may fail. -/
structure Codec (α : Type) where
  Marshal : α → Except Error String
  Unmarshal : String → Except Error α

end json

namespace redis

/-- The remote key-value store as one client sees it: its string keys, its
sets and its lists, and `faults`, the outcomes of the calls still to come
(`some msg`: the call fails with that message and changes nothing; `none`, or
no entry left: the call goes through). -/
structure Client where
  strs : GoMap String
  sets : GoMap (List String)
  lists : GoMap (List String)
  faults : List (Option String)
deriving DecidableEq, Repr

/-- A client of an empty remote store, none of whose calls will fail. -/
def emptyClient : Client := { strs := [], sets := [], lists := [], faults := [] }

/-- The outcome scripted for the next call, and the client after taking it. -/
def Client.next (c : Client) : Option String × Client :=
  match c.faults with
  | [] => (none, c)
  | f :: rest => (f, { c with faults := rest })

/-- The scripted outcomes used up between two states of the client. -/
def Client.consumed (before after : Client) : List (Option String) :=
  before.faults.take (before.faults.length - after.faults.length)

/-- Redis `SET key value`. -/
def Client.Set (c : Client) (key value : String) : Except Error Unit × Client :=
  match c.next with
  | (some msg, c1) => (.error (Error.New msg), c1)
  | (none, c1) => (.ok (), { c1 with strs := c1.strs.set key value })

/-- Redis `GET key`; a missing key is the error `redis.Nil`. -/
def Client.Get (c : Client) (key : String) : Except Error String × Client :=
  match c.next with
  | (some msg, c1) => (.error (Error.New msg), c1)
  | (none, c1) =>
    match c1.strs.get key with
    | none => (.error Error.RedisNil, c1)
    | some v => (.ok v, c1)

/-- Redis `EXISTS key`: the number of the given keys that exist. -/
def Client.Exists (c : Client) (key : String) : Except Error Int × Client :=
  match c.next with
  | (some msg, c1) => (.error (Error.New msg), c1)
  | (none, c1) => (.ok (if (c1.strs.get key).isSome then 1 else 0), c1)

/-- Redis `SADD set member`. -/
def Client.SAdd (c : Client) (key member : String) : Except Error Unit × Client :=
  match c.next with
  | (some msg, c1) => (.error (Error.New msg), c1)
  | (none, c1) =>
    let old := (c1.sets.get key).getD []
    (.ok (), { c1 with sets := c1.sets.set key (if member ∈ old then old else old ++ [member]) })

/-- Redis `SMEMBERS set`. -/
def Client.SMembers (c : Client) (key : String) : Except Error (List String) × Client :=
  match c.next with
  | (some msg, c1) => (.error (Error.New msg), c1)
  | (none, c1) => (.ok ((c1.sets.get key).getD []), c1)

/-- Redis `RPUSH list value`. -/
def Client.RPush (c : Client) (key value : String) : Except Error Unit × Client :=
  match c.next with
  | (some msg, c1) => (.error (Error.New msg), c1)
  | (none, c1) =>
    (.ok (), { c1 with lists := c1.lists.set key ((c1.lists.get key).getD [] ++ [value]) })

/-- The elements `start..stop` (inclusive, negative indices counting from the
end) of a list, as Redis `LRANGE` selects them. -/
def lrange (l : List String) (start stop : Int) : List String :=
  let n : Int := l.length
  let start := if start < 0 then max 0 (n + start) else start
  let stop := if stop < 0 then n + stop else min stop (n - 1)
  if start > stop then [] else (l.drop start.toNat).take (stop - start + 1).toNat

/-- Redis `LRANGE list start stop`. -/
def Client.LRange (c : Client) (key : String) (start stop : Int) :
    Except Error (List String) × Client :=
  match c.next with
  | (some msg, c1) => (.error (Error.New msg), c1)
  | (none, c1) => (.ok (lrange ((c1.lists.get key).getD []) start stop), c1)

/-- Redis `LLEN list`. -/
def Client.LLen (c : Client) (key : String) : Except Error Int × Client :=
  match c.next with
  | (some msg, c1) => (.error (Error.New msg), c1)
  | (none, c1) => (.ok (((c1.lists.get key).getD []).length : Int), c1)

end redis

/-! ## url-service -/

namespace UrlService

namespace models

/-- Source: `models.URL`. -/
structure URL where
  ID : String
  ShortCode : String
  OriginalURL : String
  CreatedAt : Time
deriving DecidableEq, Repr

end models

namespace storage

open models

/-- Source: the interface `URLStorage`, over a backend state `σ`.  Every
method returns its result together with the backend state it leaves. -/
structure URLStorage (σ : Type) where
  Save : σ → URL → Time → Except Error Unit × σ
  FindByShortCode : σ → String → Except Error URL × σ
  FindAll : σ → Except Error (List URL) × σ
  Exists : σ → String → Bool × σ

/-- Source: `MemoryStorage` of `url-service/storage/memory.go`.  The
operations below are taken one at a time; the mutex `mu` and callers running
at once are modelled in `Shared`. -/
structure MemoryStorage where
  urls : GoMap URL
deriving DecidableEq, Repr

/-- Source: `NewMemoryStorage`. -/
def NewMemoryStorage : MemoryStorage := ⟨[]⟩

/-- The record as `Save` leaves it: the creation time is set when unset. -/
def stamp (url : URL) (now : Time) : URL :=
  if url.CreatedAt.IsZero then { url with CreatedAt := now } else url

/-- Source: `MemoryStorage.Save`; `now` is the value of `time.Now()`. -/
def MemoryStorage.Save (s : MemoryStorage) (url : URL) (now : Time) :
    Except Error Unit × MemoryStorage :=
  let url := stamp url now
  (.ok (), ⟨s.urls.set url.ShortCode url⟩)

/-- Source: `MemoryStorage.FindByShortCode`. -/
def MemoryStorage.FindByShortCode (s : MemoryStorage) (shortCode : String) :
    Except Error URL :=
  match s.urls.get shortCode with
  | none => .error (Error.New "url not found")
  | some url => .ok url

/-- Source: `MemoryStorage.FindAll`. -/
def MemoryStorage.FindAll (s : MemoryStorage) : Except Error (List URL) :=
  .ok (s.urls.map Prod.snd)

/-- Source: `MemoryStorage.Exists`. -/
def MemoryStorage.Exists (s : MemoryStorage) (shortCode : String) : Bool :=
  (s.urls.get shortCode).isSome

/-- The in-memory store seen through the interface; reads leave it as it is. -/
def memoryURLStorage : URLStorage MemoryStorage where
  Save := MemoryStorage.Save
  FindByShortCode := fun s c => (s.FindByShortCode c, s)
  FindAll := fun s => (s.FindAll, s)
  Exists := fun s c => (s.Exists c, s)

/-- The store after saving the records of `rs` in order, each with the clock
value paired with it. -/
def MemoryStorage.saveAll (s : MemoryStorage) : List (URL × Time) → MemoryStorage
  | [] => s
  | (url, now) :: rest => MemoryStorage.saveAll (s.Save url now).2 rest

/-- Source: constant `urlKeyPrefix`. -/
def urlKeyPrefix : String := "url:"

/-- Source: constant `urlListKey`. -/
def urlListKey : String := "urls:list"

/-- Source: `RedisStorage.Save` of `url-service/storage/redis.go`. -/
def RedisStorage.Save (js : json.Codec URL) (s : redis.Client) (url : URL) (now : Time) :
    Except Error Unit × redis.Client :=
  let url := stamp url now
  match js.Marshal url with
  | .error err => (.error err, s)
  | .ok data =>
    let key := urlKeyPrefix ++ url.ShortCode
    match s.Set key data with
    | (.error err, s1) => (.error err, s1)
    | (.ok _, s1) =>
      match s1.SAdd urlListKey url.ShortCode with
      | (.error err, s2) => (.error err, s2)
      | (.ok _, s2) => (.ok (), s2)

/-- Source: `RedisStorage.FindByShortCode`. -/
def RedisStorage.FindByShortCode (js : json.Codec URL) (s : redis.Client)
    (shortCode : String) : Except Error URL × redis.Client :=
  let key := urlKeyPrefix ++ shortCode
  match s.Get key with
  | (.error Error.RedisNil, s1) => (.error (Error.New "url not found"), s1)
  | (.error err, s1) => (.error err, s1)
  | (.ok data, s1) =>
    match js.Unmarshal data with
    | .error err => (.error err, s1)
    | .ok url => (.ok url, s1)

/-- The loop of `RedisStorage.FindAll` over the members of the tracking set. -/
def RedisStorage.findEach (js : json.Codec URL) :
    redis.Client → List String → List URL × redis.Client
  | s, [] => ([], s)
  | s, shortCode :: rest =>
    match RedisStorage.FindByShortCode js s shortCode with
    | (.ok url, s1) =>
      let (urls, s2) := RedisStorage.findEach js s1 rest
      (url :: urls, s2)
    | (.error _, s1) => RedisStorage.findEach js s1 rest

/-- Source: `RedisStorage.FindAll`. -/
def RedisStorage.FindAll (js : json.Codec URL) (s : redis.Client) :
    Except Error (List URL) × redis.Client :=
  match s.SMembers urlListKey with
  | (.error err, s1) => (.error err, s1)
  | (.ok shortCodes, s1) =>
    let (urls, s2) := RedisStorage.findEach js s1 shortCodes
    (.ok urls, s2)

/-- Source: `RedisStorage.Exists`. -/
def RedisStorage.Exists (s : redis.Client) (shortCode : String) : Bool × redis.Client :=
  let key := urlKeyPrefix ++ shortCode
  match s.Exists key with
  | (.error _, s1) => (false, s1)
  | (.ok n, s1) => (decide (n > 0), s1)

/-- The networked store seen through the interface. -/
def redisURLStorage (js : json.Codec URL) : URLStorage redis.Client where
  Save := RedisStorage.Save js
  FindByShortCode := RedisStorage.FindByShortCode js
  FindAll := RedisStorage.FindAll js
  Exists := RedisStorage.Exists

end storage

namespace handlers

/-- Source: `normalizeURL` in `url-service/handlers/url.go`. -/
def normalizeURL (rawURL : String) : String :=
  let rawURL := strings.TrimSpace rawURL
  if !strings.HasPrefix rawURL "http://" && !strings.HasPrefix rawURL "https://" then
    "https://" ++ rawURL
  else
    rawURL

open models storage

/-- Source: constant `shortCodeLength`. -/
def shortCodeLength : Nat := 6

/-- Source: constant `charset`. -/
def charset : String := "abcdefghijklmnopqrstuvwxyzABCDEFGHIJKLMNOPQRSTUVWXYZ0123456789"

/-- Go `charset[i]` (all of `charset` is ASCII, one byte per character). -/
def charsetAt (i : Nat) : Char := charset.data.getD i 'a'

/-- The inner loop of `generateShortCode`: fill the remaining `n` positions
of the code, one draw each. -/
def fillCode : Nat → rand.Source → List Char × rand.Source
  | 0, src => ([], src)
  | n + 1, src =>
    let (i, src1) := rand.Intn charset.length src
    let (rest, src2) := fillCode n src1
    (charsetAt i :: rest, src2)

/-- One candidate: `shortCodeLength` characters drawn from `charset`. -/
def drawCode (src : rand.Source) : String × rand.Source :=
  let (code, src1) := fillCode shortCodeLength src
  (⟨code⟩, src1)

/-- Source: `URLHandler.generateShortCode`.  `src` is the random source as
`rand.Seed` leaves it; `fuel` bounds the number of candidates tried (the
source loop has no bound), `none` meaning the bound was reached. -/
def generateShortCode {σ : Type} (st : URLStorage σ) :
    Nat → rand.Source → σ → Option (String × rand.Source × σ)
  | 0, _, _ => none
  | fuel + 1, src, s =>
    let (shortCode, src1) := drawCode src
    let (found, s1) := st.Exists s shortCode
    if !found then some (shortCode, src1, s1)
    else generateShortCode st fuel src1 s1

/-- Source: `URLHandler.CreateShortURL` from the normalization on, that is
for a request whose `url` field `reqURL` passed the checks: normalize, generate
a code, save.  `now` is the handler's `time.Now()`, `saveNow` the one of
`Save`.  The result is the record as saved, or the error of `Save`; `none`
when the generator's fuel ran out. -/
def createShortURL {σ : Type} (st : URLStorage σ) (fuel : Nat) (src : rand.Source)
    (now saveNow : Time) (s : σ) (reqURL : String) : Option (Except Error URL × σ) :=
  let originalURL := normalizeURL reqURL
  match generateShortCode st fuel src s with
  | none => none
  | some (shortCode, _, s1) =>
    let url : URL :=
      { ID := shortCode, ShortCode := shortCode, OriginalURL := originalURL, CreatedAt := now }
    match st.Save s1 url saveNow with
    | (.error err, s2) => some (.error err, s2)
    | (.ok _, s2) => some (.ok (stamp url saveNow), s2)

end handlers

end UrlService

/-! ## analytics-service -/

namespace AnalyticsService

namespace models

/-- Source: `models.ClickEvent`. -/
structure ClickEvent where
  ID : String
  ShortCode : String
  Timestamp : Time
  UserAgent : String
  Referrer : String
deriving DecidableEq, Repr

/-- Source: `models.Stats`; `Clicks` is `none` for a nil slice. -/
structure Stats where
  ShortCode : String
  TotalClicks : Int
  Clicks : Option (List ClickEvent)
deriving DecidableEq, Repr

end models

namespace storage

open models

/-- The event as `SaveClick` leaves it: `id` (a fresh `uuid.New().String()`)
when the id is empty, `now` when the timestamp is zero. -/
def fill (event : ClickEvent) (id : String) (now : Time) : ClickEvent :=
  let event := if event.ID = "" then { event with ID := id } else event
  if event.Timestamp.IsZero then { event with Timestamp := now } else event

/-- Source: `MemoryStorage` of `analytics-service/storage/memory.go`; the
slices kept in the map all come out of `append`, so they are non-nil. -/
structure MemoryStorage where
  clicks : GoMap (List ClickEvent)
deriving DecidableEq, Repr

/-- Source: `NewMemoryStorage`. -/
def NewMemoryStorage : MemoryStorage := ⟨[]⟩

/-- Source: `MemoryStorage.SaveClick`. -/
def MemoryStorage.SaveClick (s : MemoryStorage) (event : ClickEvent) (id : String)
    (now : Time) : Except Error Unit × MemoryStorage :=
  let event := fill event id now
  (.ok (), ⟨s.clicks.set event.ShortCode ((s.clicks.get event.ShortCode).getD [] ++ [event])⟩)

/-- Source: `MemoryStorage.GetStatsByShortCode`. -/
def MemoryStorage.GetStatsByShortCode (s : MemoryStorage) (shortCode : String) :
    Except Error Stats :=
  match s.clicks.get shortCode with
  | none => .ok { ShortCode := shortCode, TotalClicks := 0, Clicks := some [] }
  | some clicks =>
    .ok { ShortCode := shortCode, TotalClicks := (clicks.length : Int), Clicks := some clicks }

/-- Source: `MemoryStorage.GetAllStats`. -/
def MemoryStorage.GetAllStats (s : MemoryStorage) : Except Error (List Stats) :=
  .ok (s.clicks.map fun kv =>
    { ShortCode := kv.1, TotalClicks := (kv.2.length : Int), Clicks := none })

/-- A call of `SaveClick`: the event, with the uuid and the clock value the
call would draw. -/
structure SaveCall where
  event : ClickEvent
  id : String
  now : Time
deriving DecidableEq, Repr

/-- The event a call leaves in the store. -/
def SaveCall.stored (c : SaveCall) : ClickEvent := fill c.event c.id c.now

/-- The store after the calls of `cs`, in order. -/
def MemoryStorage.saveAll (s : MemoryStorage) : List SaveCall → MemoryStorage
  | [] => s
  | c :: rest => MemoryStorage.saveAll (s.SaveClick c.event c.id c.now).2 rest

/-- Source: constant `clickKeyPrefix`. -/
def clickKeyPrefix : String := "clicks:"

/-- Source: constant `statsListKey`. -/
def statsListKey : String := "stats:list"

/-- Source: `RedisStorage.SaveClick` of `analytics-service/storage/redis.go`. -/
def RedisStorage.SaveClick (js : json.Codec ClickEvent) (s : redis.Client)
    (event : ClickEvent) (id : String) (now : Time) : Except Error Unit × redis.Client :=
  let event := fill event id now
  match js.Marshal event with
  | .error err => (.error err, s)
  | .ok data =>
    let key := clickKeyPrefix ++ event.ShortCode
    match s.RPush key data with
    | (.error err, s1) => (.error err, s1)
    | (.ok _, s1) =>
      match s1.SAdd statsListKey event.ShortCode with
      | (.error err, s2) => (.error err, s2)
      | (.ok _, s2) => (.ok (), s2)

/-- The remote store after the calls of `cs`, in order. -/
def RedisStorage.saveAll (js : json.Codec ClickEvent) (s : redis.Client) :
    List SaveCall → redis.Client
  | [] => s
  | c :: rest => RedisStorage.saveAll js (RedisStorage.SaveClick js s c.event c.id c.now).2 rest

/-- The loop of `RedisStorage.GetStatsByShortCode`: keep what unmarshals. -/
def RedisStorage.decodeEach (js : json.Codec ClickEvent) : List String → List ClickEvent
  | [] => []
  | data :: rest =>
    match js.Unmarshal data with
    | .ok click => click :: RedisStorage.decodeEach js rest
    | .error _ => RedisStorage.decodeEach js rest

/-- Source: `RedisStorage.GetStatsByShortCode`. -/
def RedisStorage.GetStatsByShortCode (js : json.Codec ClickEvent) (s : redis.Client)
    (shortCode : String) : Except Error Stats × redis.Client :=
  let key := clickKeyPrefix ++ shortCode
  match s.LRange key 0 (-1) with
  | (.error err, s1) => (.error err, s1)
  | (.ok clickData, s1) =>
    let clicks := RedisStorage.decodeEach js clickData
    (.ok { ShortCode := shortCode, TotalClicks := (clicks.length : Int), Clicks := some clicks },
      s1)

/-- The loop of `RedisStorage.GetAllStats` over the members of the tracking set. -/
def RedisStorage.countEach : redis.Client → List String → List Stats × redis.Client
  | s, [] => ([], s)
  | s, shortCode :: rest =>
    let key := clickKeyPrefix ++ shortCode
    match s.LLen key with
    | (.error _, s1) => RedisStorage.countEach s1 rest
    | (.ok count, s1) =>
      let (stats, s2) := RedisStorage.countEach s1 rest
      ({ ShortCode := shortCode, TotalClicks := count, Clicks := none } :: stats, s2)

/-- Source: `RedisStorage.GetAllStats`. -/
def RedisStorage.GetAllStats (s : redis.Client) : Except Error (List Stats) × redis.Client :=
  match s.SMembers statsListKey with
  | (.error err, s1) => (.error err, s1)
  | (.ok shortCodes, s1) =>
    let (stats, s2) := RedisStorage.countEach s1 shortCodes
    (.ok stats, s2)

end storage

end AnalyticsService

/-! ## The generator, as the specification words it -/

namespace rand

/-- The source after `n` draws. -/
def after (n : Nat) (src : Source) : Source := fun i => src (i + n)

end rand

namespace UrlService

namespace handlers

/-- The specification's candidates: candidate number `k` (from `0`) is spelled
by the `k`-th block of six draws, each draw picking a character of the
alphabet. -/
def candidate (src : rand.Source) (k : Nat) : String :=
  ⟨(List.range 6).map fun i => charsetAt (src (6 * k + i) % 62)⟩

/-- The alphabet as the specification lists it: `a`-`z`, `A`-`Z`, `0`-`9`. -/
def alphabet : List Char :=
  (List.range 26).map (fun i => Char.ofNat (97 + i))
    ++ (List.range 26).map (fun i => Char.ofNat (65 + i))
    ++ (List.range 10).map (fun i => Char.ofNat (48 + i))

end handlers

end UrlService

/-! ## Concurrent callers of the in-memory URL store -/

namespace UrlService

namespace storage

open models

/-- Where a caller of `MemoryStorage.Save` stands.  The map assignment
`s.urls[url.ShortCode] = url` is not atomic in Go: it is taken as a read of
the map followed by a write of the updated map, so that two callers inside the
assignment at once would lose an update. -/
inductive Phase where
  /-- Before `s.mu.Lock()`. -/
  | start
  /-- Holding the lock, before the assignment. -/
  | locked
  /-- Inside the assignment: the map `m` has been read. -/
  | loaded (m : GoMap URL)
  /-- After the assignment, before the deferred `s.mu.Unlock()`. -/
  | stored
  /-- After `Save` has returned. -/
  | finished
deriving DecidableEq, Repr

/-- The phases between `Lock` and `Unlock`. -/
def Phase.critical : Phase → Bool
  | .locked => true
  | .loaded _ => true
  | .stored => true
  | _ => false

/-- The phases in which the caller's record has been written to the map. -/
def Phase.wrote : Phase → Bool
  | .stored => true
  | .finished => true
  | _ => false

/-- One store and its concurrent callers: whether `s.mu` is held, the map, and
the phase of each caller (caller `i` runs `Save` of the `i`-th record). -/
structure Shared where
  locked : Bool
  store : MemoryStorage
  phase : Nat → Phase

/-- A new store; no caller has started. -/
def Shared.new : Shared :=
  { locked := false, store := NewMemoryStorage, phase := fun _ => Phase.start }

/-- One step of caller `i`, whose call is `Save` of `calls[i]`: take the lock
when it is free (otherwise wait), read the map, write the map as
`MemoryStorage.Save` makes it from what was read, release the lock. -/
def Shared.step (calls : List (URL × Time)) (sys : Shared) (i : Nat) : Shared :=
  match calls[i]? with
  | none => sys
  | some (url, now) =>
    match sys.phase i with
    | .start =>
      if sys.locked then sys
      else { sys with locked := true, phase := Function.update sys.phase i Phase.locked }
    | .locked =>
      { sys with phase := Function.update sys.phase i (Phase.loaded sys.store.urls) }
    | .loaded m =>
      { sys with store := (MemoryStorage.Save ⟨m⟩ url now).2,
                 phase := Function.update sys.phase i Phase.stored }
    | .stored =>
      { sys with locked := false, phase := Function.update sys.phase i Phase.finished }
    | .finished => sys

/-- The system after the steps of a schedule, a list of caller numbers. -/
def Shared.run (calls : List (URL × Time)) (sys : Shared) : List Nat → Shared
  | [] => sys
  | i :: rest => Shared.run calls (sys.step calls i) rest

/-- What holds of every state the callers can reach: the lock is held by at
most one caller and by one exactly when it is taken, a map that was read is
still the map, and the map holds exactly the records of the callers that have
written, one entry each. -/
structure Shared.Inv (calls : List (URL × Time)) (sys : Shared) : Prop where
  free : sys.locked = false → ∀ i, (sys.phase i).critical = false
  excl : ∀ i j, (sys.phase i).critical = true → (sys.phase j).critical = true → i = j
  snap : ∀ i m, sys.phase i = Phase.loaded m → m = sys.store.urls
  nodup : sys.store.urls.keys.Nodup
  keys : ∀ k, k ∈ sys.store.urls.keys ↔
    ∃ i url now, calls[i]? = some (url, now) ∧ (sys.phase i).wrote = true ∧ url.ShortCode = k
  found : ∀ i url now, calls[i]? = some (url, now) → (sys.phase i).wrote = true →
    sys.store.urls.get url.ShortCode = some (stamp url now)

/-- The schedule that lets the callers `0 .. n-1` run one after the other. -/
def sequential : Nat → List Nat
  | 0 => []
  | n + 1 => sequential n ++ [n, n, n, n]

end storage

end UrlService

/-! ## Sample inputs -/

/-- A source whose draws are all `k`. -/
def constSource (k : Nat) : rand.Source := fun _ => k

/-- A source that draws `0` six times and `1` from then on. -/
def stepSource : rand.Source := fun i => if i < 6 then 0 else 1

/-- A source whose first six draws spell `aZ3kQ9`; every later draw is `0`. -/
def codeSource : rand.Source := fun i => [0, 51, 55, 10, 42, 61].getD i 0

/-- A URL record under the code `aaaaaa`. -/
def sampleURL : UrlService.models.URL :=
  { ID := "aaaaaa", ShortCode := "aaaaaa", OriginalURL := "https://a.example", CreatedAt := 5 }

/-- Another URL record under the same code `aaaaaa`. -/
def otherURL : UrlService.models.URL :=
  { ID := "aaaaaa", ShortCode := "aaaaaa", OriginalURL := "https://b.example", CreatedAt := 6 }

/-- A click on `code` from the user agent `agent`, as `TrackClick` builds it
(no id yet), with the uuid `id` that `SaveClick` will draw. -/
def clickOn (code agent id : String) (now : Time) : AnalyticsService.storage.SaveCall :=
  { event := { ID := "", ShortCode := code, Timestamp := now, UserAgent := agent, Referrer := "" },
    id := id, now := now + 1 }

/-- Three clicks on `abc123` from distinct user agents, with a click on
`zzz999` in between. -/
def sampleClicks : List AnalyticsService.storage.SaveCall :=
  [clickOn "abc123" "curl/8.0" "id-1" 10, clickOn "zzz999" "wget/1.21" "id-2" 20,
    clickOn "abc123" "Mozilla/5.0" "id-3" 30, clickOn "abc123" "Safari/17" "id-4" 40]

/-- A stand-in for the JSON coding of click events, for sample runs: an event
is written as its id, and the empty document does not parse. -/
def sampleClickCodec : json.Codec AnalyticsService.models.ClickEvent where
  Marshal := fun e => .ok e.ID
  Unmarshal := fun d =>
    if d = "" then .error (Error.New "unexpected end of JSON input")
    else .ok { ID := d, ShortCode := "", Timestamp := 0, UserAgent := "", Referrer := "" }

/-- The events the sample clicks leave in a store. -/
def sampleEvents : List AnalyticsService.models.ClickEvent :=
  sampleClicks.map AnalyticsService.storage.SaveCall.stored

/-- A stand-in for the JSON coding of click events that reads back what it
wrote, for the sample events: an event is written as its id, and a document is
read as the sample event with that id. -/
def tableClickCodec : json.Codec AnalyticsService.models.ClickEvent where
  Marshal := fun e => .ok e.ID
  Unmarshal := fun d =>
    match sampleEvents.find? (fun e => e.ID = d) with
    | some e => .ok e
    | none => .error (Error.New "invalid character")

/-- A stand-in for the JSON coding of URL records that reads back what it
wrote, for the two sample records: a record is written as its original URL,
and a document is read as the sample record with that URL. -/
def tableURLCodec : json.Codec UrlService.models.URL where
  Marshal := fun u => .ok u.OriginalURL
  Unmarshal := fun d =>
    match [sampleURL, otherURL].find? (fun u => u.OriginalURL = d) with
    | some u => .ok u
    | none => .error (Error.New "invalid character")

/-- A stand-in for the JSON coding of URL records, for sample runs: a record
is written as its original URL, and the empty document does not parse. -/
def sampleURLCodec : json.Codec UrlService.models.URL where
  Marshal := fun u => .ok u.OriginalURL
  Unmarshal := fun d =>
    if d = "" then .error (Error.New "unexpected end of JSON input")
    else .ok { ID := "", ShortCode := "", OriginalURL := d, CreatedAt := 0 }

/-- A remote store holding one URL blob under `url:aaaaaa`, tracked in
`urls:list`, and a click list under `clicks:abc123` whose only entry is the
empty document; `faults` scripts the calls to come. -/
def sampleClient (faults : List (Option String)) : redis.Client :=
  { strs := [("url:aaaaaa", "https://a.example")], sets := [("urls:list", ["aaaaaa"])],
    lists := [("clicks:abc123", [""])], faults := faults }

/-- Three records with pairwise distinct codes, each with the clock value of
its `Save`. -/
def sampleCalls : List (UrlService.models.URL × Time) :=
  [(⟨"aaaaaa", "aaaaaa", "https://a.example", 0⟩, 11),
    (⟨"bbbbbb", "bbbbbb", "https://b.example", 6⟩, 12),
    (⟨"cccccc", "cccccc", "https://c.example", 7⟩, 13)]

/-- A schedule of the three callers of `sampleCalls`: caller `1` tries the lock
first, callers `0` and `2` try it while it is held and have to try again. -/
def sampleSchedule : List Nat :=
  [1, 0, 1, 2, 1, 0, 1, 2, 0, 2, 2, 0, 2, 0, 0, 0, 0]

/-- The in-memory URL store holding `sampleURL` only. -/
def sampleStore : UrlService.storage.MemoryStorage :=
  (UrlService.storage.NewMemoryStorage.Save sampleURL 9).2

/-! ## Maps -/

namespace GoMap

theorem get_set_self {V : Type} (m : GoMap V) (k : String) (v : V) :
    (m.set k v).get k = some v := by
  induction m with
  | nil => simp [set, get]
  | cons kv rest ih =>
    obtain ⟨k1, v1⟩ := kv
    by_cases h : k1 = k
    · simp [set, get, h]
    · simp [set, get, h, ih]

theorem get_set_ne {V : Type} (m : GoMap V) {k k2 : String} (v : V) (h : k ≠ k2) :
    (m.set k v).get k2 = m.get k2 := by
  induction m with
  | nil => simp [set, get, h]
  | cons kv rest ih =>
    obtain ⟨k1, v1⟩ := kv
    by_cases h1 : k1 = k
    · subst h1
      simp [set, get, h]
    · by_cases h2 : k1 = k2
      · subst h2
        simp [set, get, h1]
      · simp [set, get, h1, h2, ih]

theorem keys_set {V : Type} (m : GoMap V) (k : String) (v : V) :
    (m.set k v).keys = if k ∈ m.keys then m.keys else m.keys ++ [k] := by
  induction m with
  | nil => simp [set, keys]
  | cons kv rest ih =>
    obtain ⟨k1, v1⟩ := kv
    by_cases h : k1 = k
    · subst h
      simp [set, keys]
    · have h2 : ¬ k = k1 := fun e => h e.symm
      simp only [keys] at ih
      by_cases hm : k ∈ List.map Prod.fst rest
      · simp [set, keys, h, h2, ih, hm]
      · simp [set, keys, h, h2, ih, hm]

theorem nodup_keys_set {V : Type} (m : GoMap V) (k : String) (v : V) (h : m.keys.Nodup) :
    (m.set k v).keys.Nodup := by
  rw [keys_set]
  by_cases hm : k ∈ m.keys
  · simpa [hm] using h
  · simp only [hm, if_false]
    rw [List.nodup_append]
    refine ⟨h, List.nodup_singleton k, ?_⟩
    intro a ha hb
    simp only [List.mem_singleton] at hb
    subst hb
    exact hm ha

theorem mem_keys_iff {V : Type} (m : GoMap V) (k : String) :
    k ∈ m.keys ↔ (m.get k).isSome = true := by
  induction m with
  | nil => simp [keys, get]
  | cons kv rest ih =>
    obtain ⟨k1, v1⟩ := kv
    simp only [keys] at ih
    by_cases h : k1 = k
    · simp [keys, get, h]
    · have h2 : ¬ k = k1 := fun e => h e.symm
      simp [keys, get, h, h2, ih]

theorem get_of_mem {V : Type} (m : GoMap V) (k : String) (v : V) (hn : m.keys.Nodup)
    (h : (k, v) ∈ m) : m.get k = some v := by
  induction m with
  | nil => simp at h
  | cons kv rest ih =>
    obtain ⟨k1, v1⟩ := kv
    simp only [keys, List.map_cons, List.nodup_cons] at hn
    rcases List.mem_cons.mp h with h1 | h1
    · injection h1 with hk hv
      subst hk; subst hv
      simp [get]
    · have hk : k ∈ List.map Prod.fst rest := List.mem_map.mpr ⟨(k, v), h1, rfl⟩
      have hne : ¬ k1 = k := by
        intro e
        subst e
        exact hn.1 hk
      simp only [get, hne, if_false]
      exact ih hn.2 h1

end GoMap

/-! ## URL normalization -/

namespace strings

theorem TrimSpace_data (s : String) :
    (TrimSpace s).data = (s.data.dropWhile isSpace).rdropWhile isSpace := rfl

/-- A trimmed list starts with no white space. -/
theorem dropWhile_trimmed (l : List Char) :
    ((l.dropWhile isSpace).rdropWhile isSpace).dropWhile isSpace
      = (l.dropWhile isSpace).rdropWhile isSpace := by
  rw [List.dropWhile_eq_self_iff]
  intro hl
  obtain ⟨t, ht⟩ := List.rdropWhile_prefix isSpace (l := l.dropWhile isSpace)
  have hd : 0 < (l.dropWhile isSpace).length := by
    rw [← ht, List.length_append]; omega
  have h0 := List.dropWhile_get_zero_not isSpace l hd
  have e : ((l.dropWhile isSpace).rdropWhile isSpace).get ⟨0, hl⟩
      = (l.dropWhile isSpace).get ⟨0, hd⟩ := by
    simp only [List.get_eq_getElem]
    exact List.IsPrefix.getElem ⟨t, ht⟩ hl
  rw [e]
  exact h0

/-- Trimming is idempotent. -/
theorem TrimSpace_idem (s : String) : TrimSpace (TrimSpace s) = TrimSpace s := by
  apply String.ext
  rw [TrimSpace_data, TrimSpace_data, dropWhile_trimmed, List.rdropWhile_idempotent]

/-- A trimmed string behind a prefix that has no white space at either end is
trimmed. -/
theorem TrimSpace_append (pre s : String) (hne : pre.data ≠ [])
    (hh : isSpace (pre.data.head hne) = false) (hl : isSpace (pre.data.getLast hne) = false) :
    TrimSpace (pre ++ TrimSpace s) = pre ++ TrimSpace s := by
  apply String.ext
  rw [TrimSpace_data, String.data_append]
  have h1 : (pre.data ++ (TrimSpace s).data).dropWhile isSpace
      = pre.data ++ (TrimSpace s).data := by
    rw [List.dropWhile_eq_self_iff]
    intro hlen
    have : (pre.data ++ (TrimSpace s).data).get ⟨0, hlen⟩ = pre.data.head hne := by
      simp only [List.get_eq_getElem]
      rw [← List.head_eq_getElem_zero (List.append_ne_nil_of_left_ne_nil hne _),
        List.head_append_of_ne_nil]
    rw [this, hh]
    simp
  rw [h1, List.rdropWhile_eq_self_iff]
  intro hne2
  by_cases ht : (TrimSpace s).data = []
  · simp only [ht, List.append_nil] at hne2 ⊢
    rw [hl]; simp
  · rw [List.getLast_append_of_ne_nil ht]
    have h2 : (TrimSpace s).data.rdropWhile isSpace = (TrimSpace s).data := by
      rw [TrimSpace_data, List.rdropWhile_idempotent]
    exact (List.rdropWhile_eq_self_iff.mp h2) ht

theorem HasPrefix_append (pre s : String) : HasPrefix (pre ++ s) pre = true := by
  simp [HasPrefix, String.data_append]

end strings

/-! ## Claims on URL normalization -/

/-- Claim C2.  `normalizeURL` is idempotent: normalizing the result of a
normalization gives that result again, for every input string. -/
theorem normalizeURL_idempotent (u : String) :
    UrlService.handlers.normalizeURL (UrlService.handlers.normalizeURL u)
      = UrlService.handlers.normalizeURL u := by
  have hfix : strings.TrimSpace ("https://" ++ strings.TrimSpace u)
      = "https://" ++ strings.TrimSpace u :=
    strings.TrimSpace_append "https://" u (by decide) (by decide) (by decide)
  by_cases h : (!strings.HasPrefix (strings.TrimSpace u) "http://"
      && !strings.HasPrefix (strings.TrimSpace u) "https://") = true
  · have e : UrlService.handlers.normalizeURL u = "https://" ++ strings.TrimSpace u := by
      simp only [UrlService.handlers.normalizeURL, h, if_true]
    rw [e]
    simp only [UrlService.handlers.normalizeURL, hfix, strings.HasPrefix_append]
    simp
  · have e : UrlService.handlers.normalizeURL u = strings.TrimSpace u := by
      simp only [UrlService.handlers.normalizeURL, h]
      simp
    rw [e]
    simp only [UrlService.handlers.normalizeURL, strings.TrimSpace_idem, h]
    simp

namespace strings

theorem rdropWhile_append_rtakeWhile (p : Char → Bool) (l : List Char) :
    l.rdropWhile p ++ l.rtakeWhile p = l := by
  unfold List.rdropWhile List.rtakeWhile
  rw [← List.reverse_append, List.takeWhile_append_dropWhile, List.reverse_reverse]

/-- What `TrimSpace` removes is white space, and what it leaves neither starts
nor ends with white space. -/
theorem TrimSpace_split (u : String) :
    ∃ a b : List Char, u.data = a ++ (TrimSpace u).data ++ b
      ∧ a.all isSpace = true ∧ b.all isSpace = true
      ∧ (TrimSpace u).data.head?.map isSpace ≠ some true
      ∧ (TrimSpace u).data.getLast?.map isSpace ≠ some true := by
  refine ⟨u.data.takeWhile isSpace, (u.data.dropWhile isSpace).rtakeWhile isSpace, ?_, ?_, ?_,
    ?_, ?_⟩
  · rw [TrimSpace_data, List.append_assoc, rdropWhile_append_rtakeWhile,
      List.takeWhile_append_dropWhile]
  · rw [List.all_eq_true]
    intro c hc
    exact List.mem_takeWhile_imp hc
  · rw [List.all_eq_true]
    intro c hc
    exact List.mem_rtakeWhile_imp hc
  · have h := List.dropWhile_eq_self_iff.mp (dropWhile_trimmed u.data)
    rw [← TrimSpace_data] at h
    cases ht : (TrimSpace u).data with
    | nil => simp
    | cons c rest =>
      have h2 := h (by rw [ht]; simp)
      simp only [ht, List.get_eq_getElem, List.getElem_cons_zero] at h2
      simpa using h2
  · by_cases ht : (TrimSpace u).data = []
    · simp [ht]
    · have h := List.rdropWhile_last_not isSpace (u.data.dropWhile isSpace) ht
      rw [List.getLast?_eq_getLast _ ht]
      simpa [TrimSpace_data] using h

theorem HasPrefix_ne_empty (s pre : String) (hp : pre ≠ "") (h : HasPrefix s pre = true) :
    s ≠ "" := by
  intro hs
  subst hs
  apply hp
  apply String.ext
  cases hd : pre.data with
  | nil => rfl
  | cons c rest => simp [HasPrefix, hd] at h

end strings

/-- Claim C3.  With `t` the input trimmed of surrounding white space (what is
cut off on either side is white space, what is left neither starts nor ends
with white space), `normalizeURL u` is `t` when `t` starts with `http://` or
`https://` and `"https://" ++ t` otherwise; the result is never empty, always
starts with `http://` or `https://`, and `example.com` becomes
`https://example.com`. -/
theorem normalizeURL_spec (u : String) :
    (∃ a b : List Char, u.data = a ++ (strings.TrimSpace u).data ++ b
      ∧ a.all strings.isSpace = true ∧ b.all strings.isSpace = true
      ∧ (strings.TrimSpace u).data.head?.map strings.isSpace ≠ some true
      ∧ (strings.TrimSpace u).data.getLast?.map strings.isSpace ≠ some true)
    ∧ UrlService.handlers.normalizeURL u
        = (if strings.HasPrefix (strings.TrimSpace u) "http://"
              || strings.HasPrefix (strings.TrimSpace u) "https://"
            then strings.TrimSpace u else "https://" ++ strings.TrimSpace u)
    ∧ UrlService.handlers.normalizeURL u ≠ ""
    ∧ (strings.HasPrefix (UrlService.handlers.normalizeURL u) "http://"
        || strings.HasPrefix (UrlService.handlers.normalizeURL u) "https://") = true
    ∧ UrlService.handlers.normalizeURL "example.com" = "https://example.com" := by
  have hform : UrlService.handlers.normalizeURL u
        = (if strings.HasPrefix (strings.TrimSpace u) "http://"
              || strings.HasPrefix (strings.TrimSpace u) "https://"
            then strings.TrimSpace u else "https://" ++ strings.TrimSpace u) := by
    simp only [UrlService.handlers.normalizeURL]
    cases strings.HasPrefix (strings.TrimSpace u) "http://" <;>
      cases strings.HasPrefix (strings.TrimSpace u) "https://" <;> simp
  have hpre : (strings.HasPrefix (UrlService.handlers.normalizeURL u) "http://"
        || strings.HasPrefix (UrlService.handlers.normalizeURL u) "https://") = true := by
    rw [hform]
    by_cases h : (strings.HasPrefix (strings.TrimSpace u) "http://"
              || strings.HasPrefix (strings.TrimSpace u) "https://") = true
    · rw [if_pos h]; exact h
    · rw [if_neg h, strings.HasPrefix_append]; simp
  refine ⟨strings.TrimSpace_split u, hform, ?_, hpre, by decide⟩
  rcases Bool.or_eq_true _ _ ▸ hpre with h | h
  · exact strings.HasPrefix_ne_empty _ _ (by decide) h
  · exact strings.HasPrefix_ne_empty _ _ (by decide) h

/-! ## The in-memory URL store -/

namespace UrlService

namespace storage

open models

theorem stamp_ShortCode (url : URL) (now : Time) : (stamp url now).ShortCode = url.ShortCode := by
  unfold stamp
  split <;> rfl

theorem stamp_OriginalURL (url : URL) (now : Time) :
    (stamp url now).OriginalURL = url.OriginalURL := by
  unfold stamp
  split <;> rfl

theorem MemoryStorage.find_save_self (s : MemoryStorage) (url : URL) (now : Time) :
    (s.Save url now).2.FindByShortCode url.ShortCode = .ok (stamp url now) := by
  simp [MemoryStorage.Save, MemoryStorage.FindByShortCode, stamp_ShortCode, GoMap.get_set_self]

theorem MemoryStorage.find_save_ne (s : MemoryStorage) (url : URL) (now : Time) {c : String}
    (h : url.ShortCode ≠ c) :
    (s.Save url now).2.FindByShortCode c = s.FindByShortCode c := by
  simp [MemoryStorage.Save, MemoryStorage.FindByShortCode, stamp_ShortCode,
    GoMap.get_set_ne _ _ h]

theorem MemoryStorage.exists_save (s : MemoryStorage) (url : URL) (now : Time) (c : String) :
    (s.Save url now).2.Exists c = (decide (url.ShortCode = c) || s.Exists c) := by
  by_cases h : url.ShortCode = c
  · subst h
    simp [MemoryStorage.Save, MemoryStorage.Exists, stamp_ShortCode, GoMap.get_set_self]
  · simp [MemoryStorage.Save, MemoryStorage.Exists, stamp_ShortCode, GoMap.get_set_ne _ _ h, h]

theorem MemoryStorage.exists_saveAll (s : MemoryStorage) (rs : List (URL × Time)) (c : String) :
    (s.saveAll rs).Exists c
      = (s.Exists c || decide (c ∈ rs.map fun r => r.1.ShortCode)) := by
  induction rs generalizing s with
  | nil => simp [MemoryStorage.saveAll]
  | cons r rest ih =>
    obtain ⟨url, now⟩ := r
    simp only [MemoryStorage.saveAll, ih, MemoryStorage.exists_save, List.map_cons,
      List.mem_cons]
    by_cases h : url.ShortCode = c
    · simp [h]
    · have h2 : ¬ c = url.ShortCode := fun e => h e.symm
      simp [h, h2]

end storage

namespace handlers

open models storage

theorem generateShortCode_succ {σ : Type} (st : URLStorage σ) (fuel : Nat)
    (src : rand.Source) (s : σ) :
    generateShortCode st (fuel + 1) src s
      = if !(st.Exists s (drawCode src).1).1 then
          some ((drawCode src).1, (drawCode src).2, (st.Exists s (drawCode src).1).2)
        else generateShortCode st fuel (drawCode src).2 (st.Exists s (drawCode src).1).2 :=
  rfl

/-- Whatever the backend, the code the generator returns is one for which the
last call of `Exists` answered `false`. -/
theorem generateShortCode_unused {σ : Type} (st : URLStorage σ) (fuel : Nat)
    (src : rand.Source) (s : σ) (out : String × rand.Source × σ)
    (h : generateShortCode st fuel src s = some out) :
    ∃ s0, st.Exists s0 out.1 = (false, out.2.2) := by
  induction fuel generalizing src s with
  | zero => simp [generateShortCode] at h
  | succ n ih =>
    rw [generateShortCode_succ] at h
    by_cases hf : (st.Exists s (drawCode src).1).1 = true
    · simp only [hf, Bool.not_true, Bool.false_eq_true, if_false] at h
      exact ih _ _ h
    · simp only [hf, Bool.not_eq_true, Bool.not_false, if_true, Option.some.injEq] at h
      subst h
      refine ⟨s, ?_⟩
      simp only [Bool.not_eq_true] at hf
      exact Prod.ext hf rfl

/-- On the in-memory store the generator leaves the store as it found it. -/
theorem generateShortCode_memory_state (fuel : Nat) (src : rand.Source) (s : MemoryStorage)
    (out : String × rand.Source × MemoryStorage)
    (h : generateShortCode memoryURLStorage fuel src s = some out) : out.2.2 = s := by
  induction fuel generalizing src with
  | zero => simp [generateShortCode] at h
  | succ n ih =>
    rw [generateShortCode_succ] at h
    by_cases hf : (memoryURLStorage.Exists s (drawCode src).1).1 = true
    · simp only [hf, Bool.not_true, Bool.false_eq_true, if_false] at h
      exact ih _ h
    · simp only [hf, Bool.not_eq_true, Bool.not_false, if_true, Option.some.injEq] at h
      subst h
      rfl

theorem generateShortCode_memory_fresh (fuel : Nat) (src : rand.Source) (s : MemoryStorage)
    (out : String × rand.Source × MemoryStorage)
    (h : generateShortCode memoryURLStorage fuel src s = some out) :
    s.Exists out.1 = false := by
  obtain ⟨s0, h0⟩ := generateShortCode_unused memoryURLStorage fuel src s out h
  have hs := generateShortCode_memory_state fuel src s out h
  have h1 : (s0.Exists out.1, s0) = (false, out.2.2) := h0
  have h2 : s0 = out.2.2 := congrArg Prod.snd h1
  have h3 : s0.Exists out.1 = false := congrArg Prod.fst h1
  rw [h2, hs] at h3
  exact h3

end handlers

end UrlService

/-! ## Claims on the URL store and the generator -/

section URLClaims

open UrlService.models UrlService.storage UrlService.handlers

/-- Claim C1.  A code returned by `generateShortCode` is one for which the
store's `Exists` answered `false`; on the in-memory store the generator leaves
the store unchanged and the returned code is not a key of it.  Hence, if a
generated code `c1` is saved and the generator runs again on the same store,
after any further saves, the second code differs from `c1`.  A run does return:
when the first candidate is not in the store, it is returned at once. -/
theorem generateShortCode_unique :
    (∀ (σ : Type) (st : URLStorage σ) (fuel : Nat) (src : rand.Source) (s : σ)
        (out : String × rand.Source × σ),
        generateShortCode st fuel src s = some out →
          ∃ s0, st.Exists s0 out.1 = (false, out.2.2))
    ∧ (∀ (fuel : Nat) (src : rand.Source) (s : MemoryStorage)
        (out : String × rand.Source × MemoryStorage),
        generateShortCode memoryURLStorage fuel src s = some out →
          out.2.2 = s ∧ s.Exists out.1 = false ∧ s.urls.get out.1 = none)
    ∧ (∀ (fuel1 fuel2 : Nat) (src1 src2 : rand.Source) (s : MemoryStorage)
        (out1 out2 : String × rand.Source × MemoryStorage) (r : URL) (now : Time)
        (rs : List (URL × Time)),
        generateShortCode memoryURLStorage fuel1 src1 s = some out1 →
        r.ShortCode = out1.1 →
        generateShortCode memoryURLStorage fuel2 src2 ((out1.2.2.Save r now).2.saveAll rs)
          = some out2 →
        out2.1 ≠ out1.1)
    ∧ (∀ (fuel : Nat) (src : rand.Source) (s : MemoryStorage),
        s.Exists (drawCode src).1 = false →
        generateShortCode memoryURLStorage (fuel + 1) src s
          = some ((drawCode src).1, (drawCode src).2, s)) := by
  refine ⟨fun σ st fuel src s out h => generateShortCode_unused st fuel src s out h, ?_, ?_,
    ?_⟩
  rotate_right
  · intro fuel src s h
    rw [generateShortCode_succ]
    simp [memoryURLStorage, h]
  · intro fuel src s out h
    have hf := generateShortCode_memory_fresh fuel src s out h
    refine ⟨generateShortCode_memory_state fuel src s out h, hf, ?_⟩
    simpa [MemoryStorage.Exists] using hf
  · intro fuel1 fuel2 src1 src2 s out1 out2 r now rs _ hr h2 heq
    have hf := generateShortCode_memory_fresh fuel2 src2 _ out2 h2
    rw [MemoryStorage.exists_saveAll, MemoryStorage.exists_save, heq, hr] at hf
    simp at hf

/-- Witness for C1: `aaaaaa` is generated on the empty store and saved; the
next run, whose first candidate is `aaaaaa` again, returns `bbbbbb`. -/
theorem generateShortCode_unique_witness :
    (generateShortCode memoryURLStorage 1 (constSource 0) NewMemoryStorage).map (fun o => o.1)
        = some "aaaaaa"
    ∧ (generateShortCode memoryURLStorage 2 stepSource sampleStore).map (fun o => o.1)
        = some "bbbbbb"
    ∧ "bbbbbb" ≠ "aaaaaa" :=
  ⟨by decide, by decide,
    generateShortCode_unique.2.2.1 1 2 (constSource 0) stepSource NewMemoryStorage
      ("aaaaaa", _, _) ("bbbbbb", _, _) sampleURL 9 [] rfl rfl rfl⟩

/-- Claim C4.  Round trip on the in-memory URL store: `Save` succeeds, and
`FindByShortCode` of the saved record's code then succeeds with a record of
the same short code and the same original URL.  In the create flow the record
found under the generated code carries the normalized form of the submitted
URL: `example.com` is found as `https://example.com` under `aZ3kQ9`. -/
theorem save_find_roundtrip :
    (∀ (s : MemoryStorage) (r : URL) (now : Time),
        (s.Save r now).1 = .ok ()
        ∧ (s.Save r now).2.FindByShortCode r.ShortCode = .ok (stamp r now)
        ∧ (stamp r now).ShortCode = r.ShortCode
        ∧ (stamp r now).OriginalURL = r.OriginalURL)
    ∧ (∀ (fuel : Nat) (src : rand.Source) (now saveNow : Time) (s : MemoryStorage)
        (reqURL : String) (res : Except Error URL × MemoryStorage),
        createShortURL memoryURLStorage fuel src now saveNow s reqURL = some res →
          ∃ r, res.1 = .ok r ∧ res.2.FindByShortCode r.ShortCode = .ok r
            ∧ r.OriginalURL = normalizeURL reqURL ∧ s.Exists r.ShortCode = false)
    ∧ (∃ s2, createShortURL memoryURLStorage 1 codeSource 1700 1701 NewMemoryStorage
          "example.com"
          = some (.ok ⟨"aZ3kQ9", "aZ3kQ9", "https://example.com", 1700⟩, s2)
        ∧ s2.FindByShortCode "aZ3kQ9"
          = .ok ⟨"aZ3kQ9", "aZ3kQ9", "https://example.com", 1700⟩) := by
  refine ⟨fun s r now => ⟨rfl, MemoryStorage.find_save_self s r now, stamp_ShortCode r now,
    stamp_OriginalURL r now⟩, ?_, ⟨_, rfl, rfl⟩⟩
  intro fuel src now saveNow s reqURL res h
  unfold createShortURL at h
  cases hg : generateShortCode memoryURLStorage fuel src s with
  | none => simp [hg] at h
  | some out =>
    obtain ⟨code, src1, s1⟩ := out
    have hs : s1 = s := generateShortCode_memory_state fuel src s _ hg
    have hf : s.Exists code = false := generateShortCode_memory_fresh fuel src s _ hg
    rw [hg] at h
    simp only [memoryURLStorage, MemoryStorage.Save, Option.some.injEq] at h
    subst h
    subst hs
    refine ⟨_, rfl, ?_, ?_, ?_⟩
    · simp [MemoryStorage.FindByShortCode, GoMap.get_set_self]
    · simp [stamp_OriginalURL]
    · simpa [stamp_ShortCode] using hf

/-- Witness for C4: the create flow on the empty store, for `example.com`. -/
theorem save_find_roundtrip_witness :
    ∃ r, (Except.ok (stamp ⟨"aZ3kQ9", "aZ3kQ9", "https://example.com", 1700⟩ 1701)
          : Except Error URL) = .ok r
      ∧ (NewMemoryStorage.Save ⟨"aZ3kQ9", "aZ3kQ9", "https://example.com", 1700⟩
            1701).2.FindByShortCode r.ShortCode = .ok r
      ∧ r.OriginalURL = normalizeURL "example.com"
      ∧ NewMemoryStorage.Exists r.ShortCode = false :=
  save_find_roundtrip.2.1 1 codeSource 1700 1701 NewMemoryStorage "example.com"
    (.ok (stamp ⟨"aZ3kQ9", "aZ3kQ9", "https://example.com", 1700⟩ 1701),
      (NewMemoryStorage.Save ⟨"aZ3kQ9", "aZ3kQ9", "https://example.com", 1700⟩ 1701).2)
    rfl

/-- Claim C5.  On the in-memory URL store: after any sequence of saves into a
new store, `Exists c` is `true` exactly when a record with code `c` was among
those saved (so it is `false` for a never-saved code); right after `Save` of a
record, `Exists` of its code is `true`; and `FindByShortCode c` is the
not-found error exactly when `Exists c` is `false`, a record exactly when it is
`true`. -/
theorem exists_find_spec :
    (∀ (rs : List (URL × Time)) (c : String),
        (NewMemoryStorage.saveAll rs).Exists c
          = decide (c ∈ rs.map fun r => r.1.ShortCode))
    ∧ (∀ (s : MemoryStorage) (r : URL) (now : Time),
        (s.Save r now).2.Exists r.ShortCode = true)
    ∧ (∀ (s : MemoryStorage) (c : String),
        (s.FindByShortCode c = .error (Error.New "url not found") ↔ s.Exists c = false)
        ∧ ((∃ r, s.FindByShortCode c = .ok r) ↔ s.Exists c = true)) := by
  refine ⟨?_, ?_, ?_⟩
  · intro rs c
    rw [MemoryStorage.exists_saveAll]
    simp [NewMemoryStorage, MemoryStorage.Exists, GoMap.get]
  · intro s r now
    simp [MemoryStorage.exists_save]
  · intro s c
    unfold MemoryStorage.FindByShortCode MemoryStorage.Exists
    cases s.urls.get c <;> simp

/-- Counterexample to C9 as stated: with `sampleURL` saved under `aaaaaa`, a
save of another record under the same code succeeds, and the record found
under `aaaaaa` afterwards is the new one, not the one found before. -/
theorem save_overwrites :
    sampleStore.FindByShortCode "aaaaaa" = .ok sampleURL
    ∧ (sampleStore.Save otherURL 9).1 = .ok ()
    ∧ (sampleStore.Save otherURL 9).2.FindByShortCode "aaaaaa" = .ok otherURL
    ∧ otherURL ≠ sampleURL
    ∧ (sampleStore.Save otherURL 9).2.FindByShortCode "aaaaaa"
        ≠ sampleStore.FindByShortCode "aaaaaa" := by
  refine ⟨rfl, rfl, rfl, by decide, ?_⟩
  intro h
  have h2 : (Except.ok otherURL : Except Error URL) = .ok sampleURL := h
  injection h2 with h3
  exact absurd h3 (by decide)

end URLClaims

/-! ## The in-memory click store -/

namespace AnalyticsService

namespace storage

open models

theorem fill_ShortCode (event : ClickEvent) (id : String) (now : Time) :
    (fill event id now).ShortCode = event.ShortCode := by
  by_cases h1 : event.ID = "" <;> by_cases h2 : event.Timestamp.IsZero = true <;>
    simp [fill, h1, h2]

theorem SaveCall.stored_ShortCode (k : SaveCall) : k.stored.ShortCode = k.event.ShortCode :=
  fill_ShortCode _ _ _

/-- The map entry of a code after one call of `SaveClick`. -/
theorem MemoryStorage.get_SaveClick (s : MemoryStorage) (k : SaveCall) (c : String) :
    (s.SaveClick k.event k.id k.now).2.clicks.get c
      = if k.event.ShortCode = c then some ((s.clicks.get c).getD [] ++ [k.stored])
        else s.clicks.get c := by
  by_cases h : k.event.ShortCode = c
  · subst h
    simp [MemoryStorage.SaveClick, fill_ShortCode, GoMap.get_set_self, SaveCall.stored]
  · simp [MemoryStorage.SaveClick, fill_ShortCode, GoMap.get_set_ne _ _ h, h]

/-- The map entry of a code after the calls `cs`: what was there, followed by
the events of `cs` for that code, as stored, in the order of the calls. -/
theorem MemoryStorage.get_saveAll (s : MemoryStorage) (cs : List SaveCall) (c : String) :
    (s.saveAll cs).clicks.get c
      = if cs.filter (fun k => k.event.ShortCode = c) = [] then s.clicks.get c
        else some ((s.clicks.get c).getD []
          ++ (cs.filter (fun k => k.event.ShortCode = c)).map SaveCall.stored) := by
  induction cs generalizing s with
  | nil => simp [MemoryStorage.saveAll]
  | cons k rest ih =>
    simp only [MemoryStorage.saveAll, ih, MemoryStorage.get_SaveClick]
    by_cases h : k.event.ShortCode = c
    · simp [h, List.filter_cons]
    · simp [h, List.filter_cons]

theorem MemoryStorage.get_saveAll_new (cs : List SaveCall) (c : String) :
    (NewMemoryStorage.saveAll cs).clicks.get c
      = if cs.filter (fun k => k.event.ShortCode = c) = [] then none
        else some ((cs.filter (fun k => k.event.ShortCode = c)).map SaveCall.stored) := by
  rw [MemoryStorage.get_saveAll]
  simp [NewMemoryStorage, GoMap.get]

/-- The statistics of a code after the calls `cs` on a new store. -/
theorem MemoryStorage.stats_saveAll_new (cs : List SaveCall) (c : String) :
    (NewMemoryStorage.saveAll cs).GetStatsByShortCode c
      = .ok { ShortCode := c,
              TotalClicks := ((cs.filter (fun k => k.event.ShortCode = c)).length : Int),
              Clicks := some ((cs.filter (fun k => k.event.ShortCode = c)).map SaveCall.stored) } := by
  unfold MemoryStorage.GetStatsByShortCode
  rw [MemoryStorage.get_saveAll_new]
  by_cases h : cs.filter (fun k => k.event.ShortCode = c) = []
  · simp [h]
  · simp [h]

theorem MemoryStorage.nodup_saveAll (s : MemoryStorage) (cs : List SaveCall)
    (h : s.clicks.keys.Nodup) : (s.saveAll cs).clicks.keys.Nodup := by
  induction cs generalizing s with
  | nil => simpa [MemoryStorage.saveAll] using h
  | cons k rest ih =>
    simp only [MemoryStorage.saveAll]
    apply ih
    simp only [MemoryStorage.SaveClick]
    exact GoMap.nodup_keys_set _ _ _ h

theorem MemoryStorage.mem_keys_saveAll_new (cs : List SaveCall) (c : String) :
    c ∈ (NewMemoryStorage.saveAll cs).clicks.keys ↔ c ∈ cs.map (fun k => k.event.ShortCode) := by
  rw [GoMap.mem_keys_iff, MemoryStorage.get_saveAll_new]
  by_cases h : cs.filter (fun k => k.event.ShortCode = c) = []
  · simp only [h, if_true, Option.isSome_none, Bool.false_eq_true, false_iff]
    intro hc
    obtain ⟨k, hk, hkc⟩ := List.mem_map.mp hc
    have : k ∈ cs.filter (fun k => k.event.ShortCode = c) := by
      simp [List.mem_filter, hk, hkc]
    rw [h] at this
    simp at this
  · simp only [h, if_false, Option.isSome_some, true_iff]
    obtain ⟨k, hk⟩ := List.exists_mem_of_ne_nil _ h
    rw [List.mem_filter] at hk
    exact List.mem_map.mpr ⟨k, hk.1, by simpa using hk.2⟩

end storage

end AnalyticsService


/-! ## The networked backends -/

namespace redis

theorem lrange_all (l : List String) : lrange l 0 (-1) = l := by
  unfold lrange
  cases l with
  | nil => simp
  | cons a as =>
    have h1 : ¬ ((0 : Int) > ((a :: as).length : Int) + -1) := by
      simp only [List.length_cons]; push_cast; omega
    have h2 : (((a :: as).length : Int) + -1 - 0 + 1).toNat = (a :: as).length := by
      simp only [List.length_cons]; push_cast; omega
    simp only [Int.lt_irrefl, if_false, show ((-1 : Int) < 0) from by decide, if_true, h1, h2,
      Int.toNat_zero, List.drop_zero, List.take_length]

end redis

section RedisClaims

open redis

theorem take_sub_one (n : Nat) : n + 1 - n = 1 := by omega

theorem take_sub_two (n : Nat) : n + 1 + 1 - n = 2 := by omega

theorem UrlService.storage.RedisStorage.Save_fault (js : json.Codec UrlService.models.URL)
    (s : Client) (url : UrlService.models.URL) (now : Time) (m : String)
    (h : some m ∈ s.consumed (UrlService.storage.RedisStorage.Save js s url now).2) :
    (UrlService.storage.RedisStorage.Save js s url now).1 = .error (Error.New m) := by
  obtain ⟨strs, sets, lists, faults⟩ := s
  unfold UrlService.storage.RedisStorage.Save at h ⊢
  cases hm : js.Marshal (UrlService.storage.stamp url now) with
  | error e => simp [hm, Client.consumed] at h
  | ok data =>
    rcases faults with _ | ⟨_ | m1, _ | ⟨_ | m2, rest⟩⟩ <;>
      simp [hm, Client.Set, Client.SAdd, Client.next, Client.consumed, take_sub_one,
        take_sub_two] at h ⊢ <;>
      first | exact h | exact h.symm

theorem UrlService.storage.RedisStorage.Save_marshal (js : json.Codec UrlService.models.URL)
    (s : Client) (url : UrlService.models.URL) (now : Time) (e : Error)
    (h : js.Marshal (UrlService.storage.stamp url now) = .error e) :
    UrlService.storage.RedisStorage.Save js s url now = (.error e, s) := by
  simp [UrlService.storage.RedisStorage.Save, h]

theorem UrlService.storage.RedisStorage.Find_fault (js : json.Codec UrlService.models.URL)
    (s : Client) (c : String) (m : String)
    (h : some m ∈ s.consumed (UrlService.storage.RedisStorage.FindByShortCode js s c).2) :
    (UrlService.storage.RedisStorage.FindByShortCode js s c).1 = .error (Error.New m) := by
  obtain ⟨strs, sets, lists, faults⟩ := s
  unfold UrlService.storage.RedisStorage.FindByShortCode at h ⊢
  rcases faults with _ | ⟨_ | m1, rest⟩ <;>
    simp only [Client.Get, Client.next] at h ⊢
  · cases hg : GoMap.get strs (UrlService.storage.urlKeyPrefix ++ c) with
    | none => simp [hg, Client.consumed] at h
    | some v =>
      cases hu : js.Unmarshal v <;> simp [hg, hu, Client.consumed] at h
  · cases hg : GoMap.get strs (UrlService.storage.urlKeyPrefix ++ c) with
    | none => simp [hg, Client.consumed, take_sub_one] at h
    | some v =>
      cases hu : js.Unmarshal v <;> simp [hg, hu, Client.consumed, take_sub_one] at h
  · simp [Client.consumed, take_sub_one] at h ⊢
    exact h.symm

theorem UrlService.storage.RedisStorage.Find_unmarshal (js : json.Codec UrlService.models.URL)
    (s : Client) (c data : String) (e : Error)
    (hg : (s.Get (UrlService.storage.urlKeyPrefix ++ c)).1 = .ok data)
    (hu : js.Unmarshal data = .error e) :
    (UrlService.storage.RedisStorage.FindByShortCode js s c).1 = .error e := by
  unfold UrlService.storage.RedisStorage.FindByShortCode
  cases hx : s.Get (UrlService.storage.urlKeyPrefix ++ c) with
  | mk r s1 =>
    rw [hx] at hg
    simp only at hg
    subst hg
    simp [hx, hu]

theorem AnalyticsService.storage.RedisStorage.SaveClick_fault
    (js : json.Codec AnalyticsService.models.ClickEvent) (s : Client)
    (event : AnalyticsService.models.ClickEvent) (id : String) (now : Time) (m : String)
    (h : some m ∈ s.consumed (AnalyticsService.storage.RedisStorage.SaveClick js s event id now).2) :
    (AnalyticsService.storage.RedisStorage.SaveClick js s event id now).1
      = .error (Error.New m) := by
  obtain ⟨strs, sets, lists, faults⟩ := s
  unfold AnalyticsService.storage.RedisStorage.SaveClick at h ⊢
  cases hm : js.Marshal (AnalyticsService.storage.fill event id now) with
  | error e => simp [hm, Client.consumed] at h
  | ok data =>
    rcases faults with _ | ⟨_ | m1, _ | ⟨_ | m2, rest⟩⟩ <;>
      simp [hm, Client.RPush, Client.SAdd, Client.next, Client.consumed, take_sub_one,
        take_sub_two] at h ⊢ <;>
      first | exact h | exact h.symm

theorem AnalyticsService.storage.RedisStorage.SaveClick_marshal
    (js : json.Codec AnalyticsService.models.ClickEvent) (s : Client)
    (event : AnalyticsService.models.ClickEvent) (id : String) (now : Time) (e : Error)
    (h : js.Marshal (AnalyticsService.storage.fill event id now) = .error e) :
    AnalyticsService.storage.RedisStorage.SaveClick js s event id now = (.error e, s) := by
  simp [AnalyticsService.storage.RedisStorage.SaveClick, h]

theorem AnalyticsService.storage.RedisStorage.GetStats_fault
    (js : json.Codec AnalyticsService.models.ClickEvent) (s : Client) (c : String) (m : String)
    (h : some m ∈ s.consumed
      (AnalyticsService.storage.RedisStorage.GetStatsByShortCode js s c).2) :
    (AnalyticsService.storage.RedisStorage.GetStatsByShortCode js s c).1
      = .error (Error.New m) := by
  obtain ⟨strs, sets, lists, faults⟩ := s
  unfold AnalyticsService.storage.RedisStorage.GetStatsByShortCode at h ⊢
  rcases faults with _ | ⟨_ | m1, rest⟩ <;>
    simp [Client.LRange, Client.next, Client.consumed, take_sub_one] at h ⊢
  exact h.symm

/-- Without a fault on its one call, `GetStatsByShortCode` succeeds, with the
entries of the list that unmarshal; the others are left out. -/
theorem AnalyticsService.storage.RedisStorage.GetStats_ok
    (js : json.Codec AnalyticsService.models.ClickEvent) (s : Client) (c : String)
    (h : s.next.1 = none) :
    (AnalyticsService.storage.RedisStorage.GetStatsByShortCode js s c).1
      = .ok { ShortCode := c,
              TotalClicks := ((AnalyticsService.storage.RedisStorage.decodeEach js
                ((s.lists.get (AnalyticsService.storage.clickKeyPrefix ++ c)).getD [])).length
                  : Int),
              Clicks := some (AnalyticsService.storage.RedisStorage.decodeEach js
                ((s.lists.get (AnalyticsService.storage.clickKeyPrefix ++ c)).getD [])) } := by
  obtain ⟨strs, sets, lists, faults⟩ := s
  unfold AnalyticsService.storage.RedisStorage.GetStatsByShortCode
  rcases faults with _ | ⟨_ | m1, rest⟩ <;>
    simp [Client.LRange, Client.next, lrange_all] at h ⊢

theorem AnalyticsService.storage.RedisStorage.decodeEach_eq
    (js : json.Codec AnalyticsService.models.ClickEvent) (l : List String) :
    AnalyticsService.storage.RedisStorage.decodeEach js l
      = l.filterMap (fun d => (js.Unmarshal d).toOption) := by
  induction l with
  | nil => rfl
  | cons d rest ih =>
    unfold AnalyticsService.storage.RedisStorage.decodeEach
    cases hu : js.Unmarshal d <;> simp [hu, ih, Except.toOption, List.filterMap_cons]

theorem UrlService.storage.RedisStorage.FindAll_fault (js : json.Codec UrlService.models.URL)
    (s : Client) (m : String) (h : s.next.1 = some m) :
    (UrlService.storage.RedisStorage.FindAll js s).1 = .error (Error.New m) := by
  obtain ⟨strs, sets, lists, faults⟩ := s
  unfold UrlService.storage.RedisStorage.FindAll
  rcases faults with _ | ⟨_ | m1, rest⟩ <;>
    simp [Client.SMembers, Client.next] at h ⊢
  exact h

theorem UrlService.storage.RedisStorage.FindAll_ok (js : json.Codec UrlService.models.URL)
    (s : Client) (h : s.next.1 = none) :
    (UrlService.storage.RedisStorage.FindAll js s).1
      = .ok (UrlService.storage.RedisStorage.findEach js s.next.2
          ((s.sets.get UrlService.storage.urlListKey).getD [])).1 := by
  obtain ⟨strs, sets, lists, faults⟩ := s
  unfold UrlService.storage.RedisStorage.FindAll
  rcases faults with _ | ⟨_ | m1, rest⟩ <;>
    simp [Client.SMembers, Client.next] at h ⊢

theorem AnalyticsService.storage.RedisStorage.GetAllStats_fault (s : Client) (m : String)
    (h : s.next.1 = some m) :
    (AnalyticsService.storage.RedisStorage.GetAllStats s).1 = .error (Error.New m) := by
  obtain ⟨strs, sets, lists, faults⟩ := s
  unfold AnalyticsService.storage.RedisStorage.GetAllStats
  rcases faults with _ | ⟨_ | m1, rest⟩ <;>
    simp [Client.SMembers, Client.next] at h ⊢
  exact h

theorem AnalyticsService.storage.RedisStorage.GetAllStats_ok (s : Client)
    (h : s.next.1 = none) :
    (AnalyticsService.storage.RedisStorage.GetAllStats s).1
      = .ok (AnalyticsService.storage.RedisStorage.countEach s.next.2
          ((s.sets.get AnalyticsService.storage.statsListKey).getD [])).1 := by
  obtain ⟨strs, sets, lists, faults⟩ := s
  unfold AnalyticsService.storage.RedisStorage.GetAllStats
  rcases faults with _ | ⟨_ | m1, rest⟩ <;>
    simp [Client.SMembers, Client.next] at h ⊢

theorem UrlService.storage.RedisStorage.findEach_skip (js : json.Codec UrlService.models.URL)
    (s : Client) (c : String) (rest : List String) (e : Error)
    (h : (UrlService.storage.RedisStorage.FindByShortCode js s c).1 = .error e) :
    UrlService.storage.RedisStorage.findEach js s (c :: rest)
      = UrlService.storage.RedisStorage.findEach js
          (UrlService.storage.RedisStorage.FindByShortCode js s c).2 rest := by
  rw [UrlService.storage.RedisStorage.findEach]
  cases hx : UrlService.storage.RedisStorage.FindByShortCode js s c with
  | mk r s1 =>
    rw [hx] at h
    simp only at h
    subst h
    rfl

theorem AnalyticsService.storage.RedisStorage.countEach_skip (s : Client) (c : String)
    (rest : List String) (e : Error)
    (h : (s.LLen (AnalyticsService.storage.clickKeyPrefix ++ c)).1 = .error e) :
    AnalyticsService.storage.RedisStorage.countEach s (c :: rest)
      = AnalyticsService.storage.RedisStorage.countEach
          (s.LLen (AnalyticsService.storage.clickKeyPrefix ++ c)).2 rest := by
  rw [AnalyticsService.storage.RedisStorage.countEach]
  cases hx : s.LLen (AnalyticsService.storage.clickKeyPrefix ++ c) with
  | mk r s1 =>
    rw [hx] at h
    simp only at h
    subst h
    simp [hx]

theorem UrlService.storage.RedisStorage.Exists_fault (s : Client) (c : String) (m : String)
    (h : s.next.1 = some m) :
    UrlService.storage.RedisStorage.Exists s c = (false, s.next.2) := by
  obtain ⟨strs, sets, lists, faults⟩ := s
  unfold UrlService.storage.RedisStorage.Exists
  rcases faults with _ | ⟨_ | m1, rest⟩ <;>
    simp [Client.Exists, Client.next] at h ⊢

theorem UrlService.storage.RedisStorage.Exists_ok (s : Client) (c : String)
    (h : s.next.1 = none) :
    UrlService.storage.RedisStorage.Exists s c
      = ((s.strs.get (UrlService.storage.urlKeyPrefix ++ c)).isSome, s.next.2) := by
  obtain ⟨strs, sets, lists, faults⟩ := s
  unfold UrlService.storage.RedisStorage.Exists
  rcases faults with _ | ⟨_ | m1, rest⟩ <;>
    simp [Client.Exists, Client.next] at h ⊢ <;>
    cases GoMap.get strs (UrlService.storage.urlKeyPrefix ++ c) <;> simp

/-- Claim C10, as the code has it.  In the networked backends a failed
backend call is returned to the caller as that error by `Save`,
`FindByShortCode`, `SaveClick` and `GetStatsByShortCode`, and so is a failed
first call (the listing of the tracking set) of `FindAll` and `GetAllStats`; a
failure to marshal in `Save` and `SaveClick`, and to unmarshal in
`FindByShortCode`, is returned as well.  Not returned are: a failed fetch of a
member during the enumeration of `FindAll` and `GetAllStats`, which is skipped
while the enumeration still succeeds; a failed call in `Exists`, which answers
`false`; and a list entry that does not unmarshal in `GetStatsByShortCode`,
which is left out of a successful result. -/
theorem redis_failures_reported (jsU : json.Codec UrlService.models.URL)
    (jsC : json.Codec AnalyticsService.models.ClickEvent) (s : Client) (m : String) :
    (∀ (url : UrlService.models.URL) (now : Time),
        some m ∈ s.consumed (UrlService.storage.RedisStorage.Save jsU s url now).2 →
        (UrlService.storage.RedisStorage.Save jsU s url now).1 = .error (Error.New m))
    ∧ (∀ (url : UrlService.models.URL) (now : Time) (e : Error),
        jsU.Marshal (UrlService.storage.stamp url now) = .error e →
        (UrlService.storage.RedisStorage.Save jsU s url now).1 = .error e)
    ∧ (∀ c : String,
        some m ∈ s.consumed (UrlService.storage.RedisStorage.FindByShortCode jsU s c).2 →
        (UrlService.storage.RedisStorage.FindByShortCode jsU s c).1 = .error (Error.New m))
    ∧ (∀ (c data : String) (e : Error),
        (s.Get (UrlService.storage.urlKeyPrefix ++ c)).1 = .ok data →
        jsU.Unmarshal data = .error e →
        (UrlService.storage.RedisStorage.FindByShortCode jsU s c).1 = .error e)
    ∧ (∀ (event : AnalyticsService.models.ClickEvent) (id : String) (now : Time),
        some m ∈ s.consumed
          (AnalyticsService.storage.RedisStorage.SaveClick jsC s event id now).2 →
        (AnalyticsService.storage.RedisStorage.SaveClick jsC s event id now).1
          = .error (Error.New m))
    ∧ (∀ (event : AnalyticsService.models.ClickEvent) (id : String) (now : Time) (e : Error),
        jsC.Marshal (AnalyticsService.storage.fill event id now) = .error e →
        (AnalyticsService.storage.RedisStorage.SaveClick jsC s event id now).1 = .error e)
    ∧ (∀ c : String,
        some m ∈ s.consumed
          (AnalyticsService.storage.RedisStorage.GetStatsByShortCode jsC s c).2 →
        (AnalyticsService.storage.RedisStorage.GetStatsByShortCode jsC s c).1
          = .error (Error.New m))
    ∧ (s.next.1 = some m →
        (UrlService.storage.RedisStorage.FindAll jsU s).1 = .error (Error.New m)
        ∧ (AnalyticsService.storage.RedisStorage.GetAllStats s).1 = .error (Error.New m)
        ∧ ∀ c : String, UrlService.storage.RedisStorage.Exists s c = (false, s.next.2))
    ∧ (s.next.1 = none →
        (UrlService.storage.RedisStorage.FindAll jsU s).1
          = .ok (UrlService.storage.RedisStorage.findEach jsU s.next.2
              ((s.sets.get UrlService.storage.urlListKey).getD [])).1
        ∧ (AnalyticsService.storage.RedisStorage.GetAllStats s).1
          = .ok (AnalyticsService.storage.RedisStorage.countEach s.next.2
              ((s.sets.get AnalyticsService.storage.statsListKey).getD [])).1
        ∧ ∀ c : String,
          (AnalyticsService.storage.RedisStorage.GetStatsByShortCode jsC s c).1
            = .ok { ShortCode := c,
                    TotalClicks := ((List.filterMap (fun d => (jsC.Unmarshal d).toOption)
                      ((s.lists.get (AnalyticsService.storage.clickKeyPrefix ++ c)).getD
                        [])).length : Int),
                    Clicks := some (List.filterMap (fun d => (jsC.Unmarshal d).toOption)
                      ((s.lists.get (AnalyticsService.storage.clickKeyPrefix ++ c)).getD
                        [])) })
    ∧ (∀ (c : String) (rest : List String) (e : Error),
        (UrlService.storage.RedisStorage.FindByShortCode jsU s c).1 = .error e →
        UrlService.storage.RedisStorage.findEach jsU s (c :: rest)
          = UrlService.storage.RedisStorage.findEach jsU
              (UrlService.storage.RedisStorage.FindByShortCode jsU s c).2 rest)
    ∧ (∀ (c : String) (rest : List String) (e : Error),
        (s.LLen (AnalyticsService.storage.clickKeyPrefix ++ c)).1 = .error e →
        AnalyticsService.storage.RedisStorage.countEach s (c :: rest)
          = AnalyticsService.storage.RedisStorage.countEach
              (s.LLen (AnalyticsService.storage.clickKeyPrefix ++ c)).2 rest) := by
  refine ⟨fun url now h => UrlService.storage.RedisStorage.Save_fault jsU s url now m h,
    fun url now e h => by rw [UrlService.storage.RedisStorage.Save_marshal jsU s url now e h],
    fun c h => UrlService.storage.RedisStorage.Find_fault jsU s c m h,
    fun c data e hg hu => UrlService.storage.RedisStorage.Find_unmarshal jsU s c data e hg hu,
    fun event id now h =>
      AnalyticsService.storage.RedisStorage.SaveClick_fault jsC s event id now m h,
    fun event id now e h => by
      rw [AnalyticsService.storage.RedisStorage.SaveClick_marshal jsC s event id now e h],
    fun c h => AnalyticsService.storage.RedisStorage.GetStats_fault jsC s c m h,
    fun h => ⟨UrlService.storage.RedisStorage.FindAll_fault jsU s m h,
      AnalyticsService.storage.RedisStorage.GetAllStats_fault s m h,
      fun c => UrlService.storage.RedisStorage.Exists_fault s c m h⟩,
    fun h => ⟨UrlService.storage.RedisStorage.FindAll_ok jsU s h,
      AnalyticsService.storage.RedisStorage.GetAllStats_ok s h, fun c => ?_⟩,
    fun c rest e h => UrlService.storage.RedisStorage.findEach_skip jsU s c rest e h,
    fun c rest e h => AnalyticsService.storage.RedisStorage.countEach_skip s c rest e h⟩
  rw [AnalyticsService.storage.RedisStorage.GetStats_ok jsC s c h,
    AnalyticsService.storage.RedisStorage.decodeEach_eq]

/-- Witness for C10: `Save` whose second call (`SADD`) times out returns that
error. -/
theorem redis_failures_reported_witness :
    some "i/o timeout" ∈ (sampleClient [none, some "i/o timeout"]).consumed
        (UrlService.storage.RedisStorage.Save sampleURLCodec
          (sampleClient [none, some "i/o timeout"]) sampleURL 9).2
    ∧ (UrlService.storage.RedisStorage.Save sampleURLCodec
          (sampleClient [none, some "i/o timeout"]) sampleURL 9).1
        = .error (Error.New "i/o timeout") :=
  ⟨by decide,
    (redis_failures_reported sampleURLCodec sampleClickCodec
      (sampleClient [none, some "i/o timeout"]) "i/o timeout").1 sampleURL 9 (by decide)⟩

/-- Counterexample to C10 as stated, outside the enumerations.  The key
`url:aaaaaa` is in the store and a call of `Exists` that goes through answers
`true`; when the call times out `Exists` answers `false`, which is also its
answer for a key that is absent, so the failure does not reach the caller.
And `GetStatsByShortCode` on a list whose only entry does not unmarshal returns
without error, with no clicks. -/
theorem redis_failures_swallowed :
    UrlService.storage.RedisStorage.Exists (sampleClient []) "aaaaaa" = (true, sampleClient [])
    ∧ UrlService.storage.RedisStorage.Exists (sampleClient [some "i/o timeout"]) "aaaaaa"
        = (false, sampleClient [])
    ∧ UrlService.storage.RedisStorage.Exists (sampleClient []) "bbbbbb" = (false, sampleClient [])
    ∧ sampleClickCodec.Unmarshal "" = .error (Error.New "unexpected end of JSON input")
    ∧ (sampleClient []).LRange "clicks:abc123" 0 (-1) = (.ok [""], sampleClient [])
    ∧ AnalyticsService.storage.RedisStorage.GetStatsByShortCode sampleClickCodec
        (sampleClient []) "abc123"
        = (.ok { ShortCode := "abc123", TotalClicks := 0, Clicks := some [] },
            sampleClient []) := by
  refine ⟨by decide, by decide, by decide, rfl, rfl, rfl⟩

end RedisClaims

/-! ## The networked click store when no call fails -/

section RedisClicks

open redis AnalyticsService.models AnalyticsService.storage

theorem clickKey_inj (c1 c2 : String) :
    clickKeyPrefix ++ c1 = clickKeyPrefix ++ c2 ↔ c1 = c2 := by
  constructor
  · intro h
    have hd := congrArg String.data h
    rw [String.data_append, String.data_append] at hd
    exact String.ext (List.append_cancel_left hd)
  · intro h
    rw [h]

/-- A call of `SaveClick` none of whose steps fails: the blob goes to the end
of the list of the code, and the code into the tracking set. -/
theorem SaveClick_clean (js : json.Codec ClickEvent) (s : Client) (k : SaveCall) (d : String)
    (hf : s.faults = []) (hm : js.Marshal k.stored = .ok d) :
    RedisStorage.SaveClick js s k.event k.id k.now
      = (.ok (),
          { strs := s.strs,
            sets := s.sets.set statsListKey
              (if k.event.ShortCode ∈ (s.sets.get statsListKey).getD []
                then (s.sets.get statsListKey).getD []
                else (s.sets.get statsListKey).getD [] ++ [k.event.ShortCode]),
            lists := s.lists.set (clickKeyPrefix ++ k.event.ShortCode)
              ((s.lists.get (clickKeyPrefix ++ k.event.ShortCode)).getD [] ++ [d]),
            faults := [] }) := by
  obtain ⟨strs, sets, lists, faults⟩ := s
  simp only at hf
  subst hf
  simp only [SaveCall.stored] at hm
  simp [RedisStorage.SaveClick, hm, Client.RPush, Client.SAdd, Client.next, fill_ShortCode]

theorem saveAll_faults (js : json.Codec ClickEvent) (enc : ClickEvent → String) (s : Client)
    (cs : List SaveCall) (hf : s.faults = [])
    (hM : ∀ k ∈ cs, js.Marshal k.stored = .ok (enc k.stored)) :
    (RedisStorage.saveAll js s cs).faults = [] := by
  induction cs generalizing s with
  | nil => simpa [RedisStorage.saveAll] using hf
  | cons k rest ih =>
    simp only [RedisStorage.saveAll]
    rw [SaveClick_clean js s k _ hf (hM k (List.mem_cons_self _ _))]
    exact ih _ rfl (fun k2 h2 => hM k2 (List.mem_cons_of_mem _ h2))

theorem saveAll_lists (js : json.Codec ClickEvent) (enc : ClickEvent → String) (s : Client)
    (cs : List SaveCall) (c : String) (hf : s.faults = [])
    (hM : ∀ k ∈ cs, js.Marshal k.stored = .ok (enc k.stored)) :
    (RedisStorage.saveAll js s cs).lists.get (clickKeyPrefix ++ c)
      = if cs.filter (fun k => k.event.ShortCode = c) = [] then
          s.lists.get (clickKeyPrefix ++ c)
        else some ((s.lists.get (clickKeyPrefix ++ c)).getD []
          ++ (cs.filter (fun k => k.event.ShortCode = c)).map (fun k => enc k.stored)) := by
  induction cs generalizing s with
  | nil => simp [RedisStorage.saveAll]
  | cons k rest ih =>
    simp only [RedisStorage.saveAll]
    rw [SaveClick_clean js s k _ hf (hM k (List.mem_cons_self _ _))]
    rw [ih _ rfl (fun k2 h2 => hM k2 (List.mem_cons_of_mem _ h2))]
    by_cases h : k.event.ShortCode = c
    · subst h
      simp [List.filter_cons, GoMap.get_set_self]
    · have hk : clickKeyPrefix ++ k.event.ShortCode ≠ clickKeyPrefix ++ c :=
        fun e => h ((clickKey_inj _ _).mp e)
      simp [List.filter_cons, h, GoMap.get_set_ne _ _ hk]

theorem saveAll_members (js : json.Codec ClickEvent) (enc : ClickEvent → String) (s : Client)
    (cs : List SaveCall) (hf : s.faults = [])
    (hM : ∀ k ∈ cs, js.Marshal k.stored = .ok (enc k.stored))
    (hn : ((s.sets.get statsListKey).getD []).Nodup) :
    (((RedisStorage.saveAll js s cs).sets.get statsListKey).getD []).Nodup
    ∧ ∀ c : String, c ∈ ((RedisStorage.saveAll js s cs).sets.get statsListKey).getD []
        ↔ (c ∈ (s.sets.get statsListKey).getD [] ∨ c ∈ cs.map (fun k => k.event.ShortCode)) := by
  induction cs generalizing s with
  | nil => simpa [RedisStorage.saveAll] using hn
  | cons k rest ih =>
    simp only [RedisStorage.saveAll]
    rw [SaveClick_clean js s k _ hf (hM k (List.mem_cons_self _ _))]
    have hstep := ih
      { strs := s.strs,
        sets := s.sets.set statsListKey
          (if k.event.ShortCode ∈ (s.sets.get statsListKey).getD []
            then (s.sets.get statsListKey).getD []
            else (s.sets.get statsListKey).getD [] ++ [k.event.ShortCode]),
        lists := s.lists.set (clickKeyPrefix ++ k.event.ShortCode)
          ((s.lists.get (clickKeyPrefix ++ k.event.ShortCode)).getD []
            ++ [enc k.stored]),
        faults := [] } rfl (fun k2 h2 => hM k2 (List.mem_cons_of_mem _ h2))
    simp only [GoMap.get_set_self, Option.getD_some] at hstep
    by_cases hmem : k.event.ShortCode ∈ (s.sets.get statsListKey).getD []
    · simp only [hmem, if_true] at hstep ⊢
      refine ⟨(hstep hn).1, fun c => ?_⟩
      rw [(hstep hn).2 c]
      simp only [List.map_cons, List.mem_cons]
      constructor
      · rintro (h | h)
        · exact Or.inl h
        · exact Or.inr (Or.inr h)
      · rintro (h | h | h)
        · exact Or.inl h
        · exact Or.inl (h ▸ hmem)
        · exact Or.inr h
    · simp only [hmem, if_false] at hstep ⊢
      have hn2 : ((s.sets.get statsListKey).getD [] ++ [k.event.ShortCode]).Nodup := by
        rw [List.nodup_append]
        refine ⟨hn, List.nodup_singleton _, ?_⟩
        intro a ha hb
        simp only [List.mem_singleton] at hb
        subst hb
        exact hmem ha
      refine ⟨(hstep hn2).1, fun c => ?_⟩
      rw [(hstep hn2).2 c]
      simp only [List.map_cons, List.mem_cons, List.mem_append, List.not_mem_nil, or_false]
      constructor
      · rintro ((h | h) | h)
        · exact Or.inl h
        · exact Or.inr (Or.inl h)
        · exact Or.inr (Or.inr h)
      · rintro (h | h | h)
        · exact Or.inl (Or.inl h)
        · exact Or.inl (Or.inr h)
        · exact Or.inr h

theorem countEach_clean (s : Client) (l : List String) (hf : s.faults = []) :
    RedisStorage.countEach s l
      = (l.map (fun c =>
            ({ ShortCode := c,
               TotalClicks := (((s.lists.get (clickKeyPrefix ++ c)).getD []).length : Int),
               Clicks := none } : Stats)), s) := by
  obtain ⟨strs, sets, lists, faults⟩ := s
  simp only at hf
  subst hf
  induction l with
  | nil => rfl
  | cons c rest ih =>
    rw [RedisStorage.countEach]
    simp only [Client.LLen, Client.next]
    rw [ih]
    simp

theorem GetAllStats_clean (s : Client) (hf : s.faults = []) :
    (RedisStorage.GetAllStats s).1
      = .ok (((s.sets.get statsListKey).getD []).map (fun c =>
            ({ ShortCode := c,
               TotalClicks := (((s.lists.get (clickKeyPrefix ++ c)).getD []).length : Int),
               Clicks := none } : Stats))) := by
  have hn : s.next = (none, s) := by simp [Client.next, hf]
  rw [RedisStorage.GetAllStats_ok s (by rw [hn]), hn, countEach_clean s _ hf]

theorem decodeEach_map (js : json.Codec ClickEvent) (enc : ClickEvent → String)
    (l : List SaveCall) (hU : ∀ k ∈ l, js.Unmarshal (enc k.stored) = .ok k.stored) :
    RedisStorage.decodeEach js (l.map (fun k => enc k.stored)) = l.map SaveCall.stored := by
  induction l with
  | nil => rfl
  | cons k rest ih =>
    simp only [List.map_cons, RedisStorage.decodeEach, hU k (List.mem_cons_self _ _)]
    rw [ih (fun k2 h2 => hU k2 (List.mem_cons_of_mem _ h2))]

/-- The statistics of a code on the networked store after the calls `cs` on an
empty store, when no call fails and the coding reads back what it wrote. -/
theorem GetStats_saveAll (js : json.Codec ClickEvent) (enc : ClickEvent → String)
    (cs : List SaveCall) (c : String)
    (hM : ∀ k ∈ cs, js.Marshal k.stored = .ok (enc k.stored))
    (hU : ∀ k ∈ cs, js.Unmarshal (enc k.stored) = .ok k.stored) :
    (RedisStorage.GetStatsByShortCode js (RedisStorage.saveAll js emptyClient cs) c).1
      = .ok { ShortCode := c,
              TotalClicks := ((cs.filter (fun k => k.event.ShortCode = c)).length : Int),
              Clicks := some ((cs.filter (fun k => k.event.ShortCode = c)).map
                SaveCall.stored) } := by
  have hf := saveAll_faults js enc emptyClient cs rfl hM
  have hn : (RedisStorage.saveAll js emptyClient cs).next.1 = none := by
    simp [Client.next, hf]
  rw [RedisStorage.GetStats_ok js _ c hn, saveAll_lists js enc emptyClient cs c rfl hM]
  have hU2 : ∀ k ∈ cs.filter (fun k => k.event.ShortCode = c),
      js.Unmarshal (enc k.stored) = .ok k.stored :=
    fun k hk => hU k (List.mem_filter.mp hk).1
  by_cases h : cs.filter (fun k => k.event.ShortCode = c) = []
  · simp [h, emptyClient, GoMap.get, RedisStorage.decodeEach]
  · simp [h, emptyClient, GoMap.get, decodeEach_map js enc _ hU2]

end RedisClicks

/-! ## Claims on the click store -/

section ClickClaims

open AnalyticsService.models AnalyticsService.storage

/-- Claim C6.  A code for which no click was saved has statistics without
error: the code itself, a total of `0` and an empty, non-nil list of clicks.
On the in-memory store this holds in every state without an entry for the
code, as is the case after any calls of `SaveClick` for other codes on a new
store.  On the networked store it holds whenever the one backend call goes
through and the list of the code is absent, as is the case after any calls of
`SaveClick` for other codes on an empty store. -/
theorem stats_of_unclicked_code :
    (∀ (s : MemoryStorage) (c : String), s.clicks.get c = none →
        s.GetStatsByShortCode c = .ok { ShortCode := c, TotalClicks := 0, Clicks := some [] })
    ∧ (∀ (cs : List SaveCall) (c : String), c ∉ cs.map (fun k => k.event.ShortCode) →
        (NewMemoryStorage.saveAll cs).GetStatsByShortCode c
          = .ok { ShortCode := c, TotalClicks := 0, Clicks := some [] })
    ∧ (∀ (js : json.Codec ClickEvent) (s : redis.Client) (c : String),
        s.next.1 = none → s.lists.get (clickKeyPrefix ++ c) = none →
        (RedisStorage.GetStatsByShortCode js s c).1
          = .ok { ShortCode := c, TotalClicks := 0, Clicks := some [] })
    ∧ (∀ (js : json.Codec ClickEvent) (enc : ClickEvent → String) (cs : List SaveCall)
        (c : String), (∀ k ∈ cs, js.Marshal k.stored = .ok (enc k.stored)) →
        c ∉ cs.map (fun k => k.event.ShortCode) →
        (RedisStorage.GetStatsByShortCode js (RedisStorage.saveAll js redis.emptyClient cs) c).1
          = .ok { ShortCode := c, TotalClicks := 0, Clicks := some [] }) := by
  have h1 : ∀ (s : MemoryStorage) (c : String), s.clicks.get c = none →
      s.GetStatsByShortCode c = .ok { ShortCode := c, TotalClicks := 0, Clicks := some [] } := by
    intro s c h
    simp [MemoryStorage.GetStatsByShortCode, h]
  have h3 : ∀ (js : json.Codec ClickEvent) (s : redis.Client) (c : String),
      s.next.1 = none → s.lists.get (clickKeyPrefix ++ c) = none →
      (RedisStorage.GetStatsByShortCode js s c).1
        = .ok { ShortCode := c, TotalClicks := 0, Clicks := some [] } := by
    intro js s c hn hl
    rw [RedisStorage.GetStats_ok js s c hn, hl]
    simp [RedisStorage.decodeEach]
  have hnone : ∀ (cs : List SaveCall) (c : String), c ∉ cs.map (fun k => k.event.ShortCode) →
      cs.filter (fun k => k.event.ShortCode = c) = [] := by
    intro cs c hc
    rw [List.filter_eq_nil_iff]
    intro k hk hkc
    exact hc (List.mem_map.mpr ⟨k, hk, by simpa using hkc⟩)
  refine ⟨h1, ?_, h3, ?_⟩
  · intro cs c hc
    apply h1
    rw [MemoryStorage.get_saveAll_new, hnone cs c hc]
    simp
  · intro js enc cs c hM hc
    have hf := saveAll_faults js enc redis.emptyClient cs rfl hM
    apply h3
    · simp [redis.Client.next, hf]
    · rw [saveAll_lists js enc redis.emptyClient cs c rfl hM, hnone cs c hc]
      simp [redis.emptyClient, GoMap.get]

/-- Witness for C6: after the sample clicks, `nobody` has had no click. -/
theorem stats_of_unclicked_code_witness :
    (NewMemoryStorage.saveAll sampleClicks).GetStatsByShortCode "nobody"
      = .ok { ShortCode := "nobody", TotalClicks := 0, Clicks := some [] } :=
  stats_of_unclicked_code.2.1 sampleClicks "nobody" (by decide)

/-- Claim C7.  After any sequence of `SaveClick` calls on a new in-memory
click store, the statistics of a code `c` carry, as total, the number of calls
whose event has code `c`, and as clicks exactly the events of those calls, as
stored, in the order of the calls.  Three clicks saved for `abc123` give a
total of 3 and the three events in insertion order. -/
theorem stats_counts_in_order :
    (∀ (cs : List SaveCall) (c : String),
        (NewMemoryStorage.saveAll cs).GetStatsByShortCode c
          = .ok { ShortCode := c,
                  TotalClicks := ((cs.filter (fun k => k.event.ShortCode = c)).length : Int),
                  Clicks := some ((cs.filter (fun k => k.event.ShortCode = c)).map
                    SaveCall.stored) })
    ∧ (∀ k : SaveCall, k.stored.ShortCode = k.event.ShortCode
        ∧ k.stored.UserAgent = k.event.UserAgent ∧ k.stored.Referrer = k.event.Referrer
        ∧ k.stored.ID = (if k.event.ID = "" then k.id else k.event.ID)
        ∧ k.stored.Timestamp
            = (if k.event.Timestamp.IsZero then k.now else k.event.Timestamp))
    ∧ (NewMemoryStorage.saveAll sampleClicks).GetStatsByShortCode "abc123"
        = .ok { ShortCode := "abc123", TotalClicks := 3,
                Clicks := some [⟨"id-1", "abc123", 10, "curl/8.0", ""⟩,
                  ⟨"id-3", "abc123", 30, "Mozilla/5.0", ""⟩,
                  ⟨"id-4", "abc123", 40, "Safari/17", ""⟩] } := by
  refine ⟨MemoryStorage.stats_saveAll_new, ?_, rfl⟩
  intro k
  by_cases h1 : k.event.ID = "" <;> by_cases h2 : k.event.Timestamp.IsZero = true <;>
    simp [SaveCall.stored, fill, h1, h2]

/-- Claim C8.  After any sequence of `SaveClick` calls on a new in-memory
click store, `GetAllStats` succeeds with summaries whose codes are pairwise
distinct and are exactly the codes of the saved events; each summary carries
no events, its total is the number of events saved for its code, and
`GetStatsByShortCode` reports the same total for that code.  The same holds on
the networked store, starting from an empty store, when no call fails and the
coding reads back the events it wrote. -/
theorem getAllStats_spec (cs : List SaveCall) :
    (∃ stats : List Stats, (NewMemoryStorage.saveAll cs).GetAllStats = .ok stats
      ∧ (stats.map fun st => st.ShortCode).Nodup
      ∧ (∀ c : String, c ∈ (stats.map fun st => st.ShortCode)
          ↔ c ∈ cs.map (fun k => k.event.ShortCode))
      ∧ (∀ st ∈ stats, st.Clicks = none
          ∧ st.TotalClicks
              = ((cs.filter (fun k => k.event.ShortCode = st.ShortCode)).length : Int)
          ∧ ∃ byCode : Stats,
              (NewMemoryStorage.saveAll cs).GetStatsByShortCode st.ShortCode = .ok byCode
              ∧ byCode.TotalClicks = st.TotalClicks))
    ∧ (∀ (js : json.Codec ClickEvent) (enc : ClickEvent → String),
        (∀ k ∈ cs, js.Marshal k.stored = .ok (enc k.stored)) →
        (∀ k ∈ cs, js.Unmarshal (enc k.stored) = .ok k.stored) →
        ∃ stats : List Stats,
          (RedisStorage.GetAllStats (RedisStorage.saveAll js redis.emptyClient cs)).1 = .ok stats
          ∧ (stats.map fun st => st.ShortCode).Nodup
          ∧ (∀ c : String, c ∈ (stats.map fun st => st.ShortCode)
              ↔ c ∈ cs.map (fun k => k.event.ShortCode))
          ∧ (∀ st ∈ stats, st.Clicks = none
              ∧ st.TotalClicks
                  = ((cs.filter (fun k => k.event.ShortCode = st.ShortCode)).length : Int)
              ∧ ∃ byCode : Stats,
                  (RedisStorage.GetStatsByShortCode js
                    (RedisStorage.saveAll js redis.emptyClient cs) st.ShortCode).1 = .ok byCode
                  ∧ byCode.TotalClicks = st.TotalClicks)) := by
  have hkeys : ∀ m : GoMap (List ClickEvent),
      (List.map (fun st : Stats => st.ShortCode)
        (List.map (fun kv : String × List ClickEvent =>
          ({ ShortCode := kv.1, TotalClicks := (kv.2.length : Int), Clicks := none } : Stats)) m))
        = m.keys := by
    intro m
    simp [GoMap.keys, List.map_map, Function.comp_def]
  refine ⟨⟨_, rfl, ?_, ?_, ?_⟩, ?_⟩
  · rw [hkeys]
    exact MemoryStorage.nodup_saveAll _ _ (by simp [NewMemoryStorage, GoMap.keys])
  · intro c
    rw [hkeys]
    exact MemoryStorage.mem_keys_saveAll_new cs c
  · intro st hst
    obtain ⟨kv, hkv, rfl⟩ := List.mem_map.mp hst
    obtain ⟨code, clicks⟩ := kv
    have hn := MemoryStorage.nodup_saveAll NewMemoryStorage cs
      (by simp [NewMemoryStorage, GoMap.keys])
    have hg := GoMap.get_of_mem _ code clicks hn hkv
    rw [MemoryStorage.get_saveAll_new] at hg
    by_cases h : cs.filter (fun k => k.event.ShortCode = code) = []
    · simp [h] at hg
    · simp only [h, if_false, Option.some.injEq] at hg
      refine ⟨rfl, ?_, _, MemoryStorage.stats_saveAll_new cs code, ?_⟩
      · simp [← hg]
      · simp [← hg]
  · intro js enc hM hU
    have hf := saveAll_faults js enc redis.emptyClient cs rfl hM
    have hmem := saveAll_members js enc redis.emptyClient cs rfl hM
      (by simp [redis.emptyClient, GoMap.get])
    have hcodes : ∀ l : List String,
        List.map (fun st : Stats => st.ShortCode)
          (l.map (fun c =>
            ({ ShortCode := c,
               TotalClicks := ((((RedisStorage.saveAll js redis.emptyClient cs).lists.get
                 (clickKeyPrefix ++ c)).getD []).length : Int),
               Clicks := none } : Stats))) = l := by
      intro l
      simp [List.map_map, Function.comp_def]
    refine ⟨_, GetAllStats_clean _ hf, ?_, ?_, ?_⟩
    · rw [hcodes]
      exact hmem.1
    · intro c
      rw [hcodes, hmem.2 c]
      simp [redis.emptyClient, GoMap.get]
    · intro st hst
      obtain ⟨code, hcode, rfl⟩ := List.mem_map.mp hst
      have hin : code ∈ cs.map (fun k => k.event.ShortCode) := by
        have := (hmem.2 code).mp hcode
        simpa [redis.emptyClient, GoMap.get] using this
      have hne : cs.filter (fun k => k.event.ShortCode = code) ≠ [] := by
        obtain ⟨k, hk, hkc⟩ := List.mem_map.mp hin
        intro he
        have : k ∈ cs.filter (fun k => k.event.ShortCode = code) := by
          simp [List.mem_filter, hk, hkc]
        rw [he] at this
        simp at this
      refine ⟨rfl, ?_, _, GetStats_saveAll js enc cs code hM hU, ?_⟩
      · simp only
        rw [saveAll_lists js enc redis.emptyClient cs code rfl hM]
        simp [hne, redis.emptyClient, GoMap.get]
      · simp only
        rw [saveAll_lists js enc redis.emptyClient cs code rfl hM]
        simp [hne, redis.emptyClient, GoMap.get]

/-- Witness for C8: the summaries of the networked store after the sample
clicks, with a coding that reads back the sample events. -/
theorem getAllStats_spec_witness :
    (NewMemoryStorage.saveAll sampleClicks).GetAllStats
      = .ok [⟨"abc123", 3, none⟩, ⟨"zzz999", 1, none⟩]
    ∧ (RedisStorage.GetAllStats (RedisStorage.saveAll tableClickCodec redis.emptyClient
        sampleClicks)).1 = .ok [⟨"abc123", 3, none⟩, ⟨"zzz999", 1, none⟩]
    ∧ ∃ stats : List Stats,
        (RedisStorage.GetAllStats (RedisStorage.saveAll tableClickCodec redis.emptyClient
          sampleClicks)).1 = .ok stats
        ∧ (stats.map fun st => st.ShortCode).Nodup
        ∧ (∀ c : String, c ∈ (stats.map fun st => st.ShortCode)
            ↔ c ∈ sampleClicks.map (fun k => k.event.ShortCode))
        ∧ (∀ st ∈ stats, st.Clicks = none
            ∧ st.TotalClicks
                = ((sampleClicks.filter (fun k => k.event.ShortCode = st.ShortCode)).length
                    : Int)
            ∧ ∃ byCode : Stats,
                (RedisStorage.GetStatsByShortCode tableClickCodec
                  (RedisStorage.saveAll tableClickCodec redis.emptyClient sampleClicks)
                  st.ShortCode).1 = .ok byCode
                ∧ byCode.TotalClicks = st.TotalClicks) :=
  ⟨rfl, rfl,
    (getAllStats_spec sampleClicks).2 tableClickCodec (fun e => e.ID) (fun _ _ => rfl)
      (by
        intro k hk
        simp only [sampleClicks, List.mem_cons, List.mem_singleton, List.not_mem_nil,
          or_false] at hk
        rcases hk with rfl | rfl | rfl | rfl <;> rfl)⟩

end ClickClaims

/-! ## The generator and the candidates of the specification -/

namespace UrlService

namespace handlers

open models storage

theorem charset_eq_alphabet : charset.data = alphabet := by decide

theorem charset_length : charset.length = 62 := by decide

theorem charset_nodup : charset.data.Nodup := by decide

theorem charsetAt_mem (i : Nat) (h : i < 62) : charsetAt i ∈ charset.data := by
  unfold charsetAt
  have hl : i < charset.data.length := by
    have : charset.data.length = 62 := by decide
    omega
  rw [List.getD_eq_getElem _ _ hl]
  exact List.getElem_mem hl

theorem fillCode_eq (n : Nat) (src : rand.Source) :
    fillCode n src
      = ((List.range n).map (fun i => charsetAt (src i % 62)), rand.after n src) := by
  induction n generalizing src with
  | zero => rfl
  | succ n ih =>
    rw [fillCode]
    simp only [rand.Intn, ih, charset_length, List.range_succ_eq_map, List.map_cons,
      List.map_map]
    refine Prod.ext rfl ?_
    funext i
    simp only [rand.after]
    congr 1

theorem after_after (m n : Nat) (src : rand.Source) :
    rand.after m (rand.after n src) = rand.after (n + m) src := by
  funext i
  simp only [rand.after]
  congr 1
  omega

/-- The candidate drawn after `6 * k` draws is candidate `k`. -/
theorem drawCode_after (src : rand.Source) (k : Nat) :
    drawCode (rand.after (6 * k) src) = (candidate src k, rand.after (6 * (k + 1)) src) := by
  unfold drawCode
  rw [fillCode_eq, shortCodeLength]
  refine Prod.ext ?_ ?_
  · simp only [candidate, rand.after]
    congr 1
    apply List.map_congr_left
    intro i _
    congr 3
    omega
  · simp only [after_after]
    congr 1

theorem after_zero (src : rand.Source) : rand.after 0 src = src := rfl

theorem candidate_after (src : rand.Source) (k : Nat) :
    candidate (rand.after 6 src) k = candidate src (k + 1) := by
  simp only [candidate, rand.after]
  congr 1

theorem drawCode_zero (src : rand.Source) :
    drawCode src = (candidate src 0, rand.after 6 src) := by
  have h := drawCode_after src 0
  rwa [Nat.mul_zero, after_zero] at h

theorem after_succ (src : rand.Source) (k : Nat) :
    rand.after (6 * (k + 1)) (rand.after 6 src) = rand.after (6 * (k + 1 + 1)) src := by
  rw [after_after]
  have e : 6 + 6 * (k + 1) = 6 * (k + 1 + 1) := by omega
  rw [e]

theorem candidate_length (src : rand.Source) (k : Nat) : (candidate src k).length = 6 := by
  simp [candidate, String.length]

theorem candidate_mem (src : rand.Source) (k : Nat) (ch : Char)
    (h : ch ∈ (candidate src k).data) : ch ∈ charset.data := by
  simp only [candidate, List.mem_map] at h
  obtain ⟨i, _, rfl⟩ := h
  exact charsetAt_mem _ (Nat.mod_lt _ (by decide))

/-- Whatever the backend, what the generator returns is one of the candidates,
and the source is left right behind that candidate. -/
theorem generateShortCode_candidate {σ : Type} (st : URLStorage σ) (fuel : Nat)
    (src : rand.Source) (s : σ) (out : String × rand.Source × σ)
    (h : generateShortCode st fuel src s = some out) :
    ∃ k, k < fuel ∧ out.1 = candidate src k ∧ out.2.1 = rand.after (6 * (k + 1)) src := by
  induction fuel generalizing src s with
  | zero => simp [generateShortCode] at h
  | succ n ih =>
    rw [generateShortCode_succ, drawCode_zero] at h
    by_cases hf : (st.Exists s (candidate src 0)).1 = true
    · simp only [hf, Bool.not_true, Bool.false_eq_true, if_false] at h
      obtain ⟨k, hk, h1, h2⟩ := ih _ _ h
      refine ⟨k + 1, by omega, ?_, ?_⟩
      · rw [h1, candidate_after]
      · rw [h2, after_succ]
    · simp only [hf, Bool.not_eq_true, Bool.not_false, if_true, Option.some.injEq] at h
      subst h
      exact ⟨0, by omega, rfl, rfl⟩

/-- On the in-memory store the generator returns the first candidate that is
not in the store. -/
theorem generateShortCode_memory_first (fuel : Nat) (src : rand.Source) (s : MemoryStorage)
    (out : String × rand.Source × MemoryStorage)
    (h : generateShortCode memoryURLStorage fuel src s = some out) :
    ∃ k, k < fuel ∧ out = (candidate src k, rand.after (6 * (k + 1)) src, s)
      ∧ s.Exists (candidate src k) = false
      ∧ ∀ j, j < k → s.Exists (candidate src j) = true := by
  induction fuel generalizing src with
  | zero => simp [generateShortCode] at h
  | succ n ih =>
    rw [generateShortCode_succ, drawCode_zero] at h
    by_cases hf : s.Exists (candidate src 0) = true
    · simp only [memoryURLStorage, hf, Bool.not_true, Bool.false_eq_true, if_false] at h
      obtain ⟨k, hk, h1, h2, h3⟩ := ih _ h
      refine ⟨k + 1, by omega, ?_, ?_, ?_⟩
      · rw [h1, candidate_after, after_succ]
      · rw [← candidate_after]; exact h2
      · intro j hj
        cases j with
        | zero => exact hf
        | succ j =>
          rw [← candidate_after]
          exact h3 j (by omega)
    · simp only [memoryURLStorage, hf, Bool.not_eq_true, Bool.not_false, if_true,
        Option.some.injEq] at h
      subst h
      refine ⟨0, by omega, rfl, by simpa using hf, ?_⟩
      intro j hj
      omega

/-- With fuel for it, the generator does return the first candidate that is
not in the store. -/
theorem generateShortCode_memory_returns (fuel : Nat) (src : rand.Source) (s : MemoryStorage)
    (k : Nat) (hk : k < fuel) (hfree : s.Exists (candidate src k) = false)
    (hused : ∀ j, j < k → s.Exists (candidate src j) = true) :
    generateShortCode memoryURLStorage fuel src s
      = some (candidate src k, rand.after (6 * (k + 1)) src, s) := by
  induction k generalizing fuel src with
  | zero =>
    obtain ⟨n, rfl⟩ : ∃ n, fuel = n + 1 := ⟨fuel - 1, by omega⟩
    rw [generateShortCode_succ, drawCode_zero]
    simp [memoryURLStorage, hfree]
  | succ k ih =>
    obtain ⟨n, rfl⟩ : ∃ n, fuel = n + 1 := ⟨fuel - 1, by omega⟩
    rw [generateShortCode_succ, drawCode_zero]
    have h0 : s.Exists (candidate src 0) = true := hused 0 (by omega)
    simp only [memoryURLStorage, h0, Bool.not_true, Bool.false_eq_true, if_false]
    have h := ih n (rand.after 6 src) (by omega)
      (by rw [candidate_after]; exact hfree)
      (fun j hj => by rw [candidate_after]; exact hused (j + 1) (by omega))
    rw [candidate_after, after_succ] at h
    exact h

end handlers

end UrlService

/-! ## Claims on the generator's result -/

section GeneratorClaims

open UrlService.models UrlService.storage UrlService.handlers

theorem Client_next_contents (c : redis.Client) :
    c.next.2.strs = c.strs ∧ c.next.2.sets = c.sets ∧ c.next.2.lists = c.lists := by
  obtain ⟨strs, sets, lists, faults⟩ := c
  cases faults <;> simp [redis.Client.next]

theorem RedisStorage_Exists_contents (c : redis.Client) (code : String) :
    (RedisStorage.Exists c code).2.strs = c.strs
    ∧ (RedisStorage.Exists c code).2.sets = c.sets
    ∧ (RedisStorage.Exists c code).2.lists = c.lists := by
  cases hn : c.next.1 with
  | none =>
    rw [UrlService.storage.RedisStorage.Exists_ok c code hn]
    exact Client_next_contents c
  | some m =>
    rw [UrlService.storage.RedisStorage.Exists_fault c code m hn]
    exact Client_next_contents c

/-- On the networked store the generator leaves the contents of the remote
store as they are. -/
theorem generateShortCode_redis_contents (js : json.Codec URL) (fuel : Nat)
    (src : rand.Source) (c : redis.Client) (out : String × rand.Source × redis.Client)
    (h : generateShortCode (redisURLStorage js) fuel src c = some out) :
    out.2.2.strs = c.strs ∧ out.2.2.sets = c.sets ∧ out.2.2.lists = c.lists := by
  induction fuel generalizing src c with
  | zero => simp [generateShortCode] at h
  | succ n ih =>
    rw [generateShortCode_succ] at h
    have hc := RedisStorage_Exists_contents c (drawCode src).1
    by_cases hf : ((redisURLStorage js).Exists c (drawCode src).1).1 = true
    · simp only [hf, Bool.not_true, Bool.false_eq_true, if_false] at h
      obtain ⟨h1, h2, h3⟩ := ih _ _ h
      exact ⟨h1.trans hc.1, h2.trans hc.2.1, h3.trans hc.2.2⟩
    · simp only [hf, Bool.not_eq_true, Bool.not_false, if_true, Option.some.injEq] at h
      subst h
      exact hc

/-- Claim C12.  The alphabet has exactly 62 pairwise distinct characters,
`a`-`z`, `A`-`Z` and `0`-`9`.  Whatever the backend, a code returned by
`generateShortCode` has exactly 6 characters, all of the alphabet, and is one
of the candidates, each candidate being a fresh block of 6 draws.  On the
in-memory store it is the first candidate for which `Exists` is `false`, the
store is returned as it was, and with fuel for that candidate the generator
does return it.  On the networked store the contents of the remote store are
left as they were. -/
theorem generateShortCode_first_free :
    (charset.length = 62 ∧ charset.data.Nodup ∧ charset.data = alphabet)
    ∧ (∀ (σ : Type) (st : URLStorage σ) (fuel : Nat) (src : rand.Source) (s : σ)
        (out : String × rand.Source × σ),
        generateShortCode st fuel src s = some out →
          out.1.length = 6 ∧ (∀ ch ∈ out.1.data, ch ∈ charset.data)
          ∧ ∃ k, k < fuel ∧ out.1 = candidate src k
              ∧ out.2.1 = rand.after (6 * (k + 1)) src)
    ∧ (∀ (fuel : Nat) (src : rand.Source) (s : MemoryStorage)
        (out : String × rand.Source × MemoryStorage),
        generateShortCode memoryURLStorage fuel src s = some out →
          ∃ k, k < fuel ∧ out = (candidate src k, rand.after (6 * (k + 1)) src, s)
            ∧ s.Exists (candidate src k) = false
            ∧ ∀ j, j < k → s.Exists (candidate src j) = true)
    ∧ (∀ (fuel : Nat) (src : rand.Source) (s : MemoryStorage) (k : Nat),
        k < fuel → s.Exists (candidate src k) = false →
        (∀ j, j < k → s.Exists (candidate src j) = true) →
        generateShortCode memoryURLStorage fuel src s
          = some (candidate src k, rand.after (6 * (k + 1)) src, s))
    ∧ (∀ (js : json.Codec URL) (fuel : Nat) (src : rand.Source) (c : redis.Client)
        (out : String × rand.Source × redis.Client),
        generateShortCode (redisURLStorage js) fuel src c = some out →
          out.2.2.strs = c.strs ∧ out.2.2.sets = c.sets ∧ out.2.2.lists = c.lists) := by
  refine ⟨⟨charset_length, charset_nodup, charset_eq_alphabet⟩, ?_,
    generateShortCode_memory_first, generateShortCode_memory_returns,
    generateShortCode_redis_contents⟩
  intro σ st fuel src s out h
  obtain ⟨k, hk, h1, h2⟩ := generateShortCode_candidate st fuel src s out h
  refine ⟨?_, ?_, k, hk, h1, h2⟩
  · rw [h1]
    exact candidate_length src k
  · intro ch hch
    rw [h1] at hch
    exact candidate_mem src k ch hch

/-- Witness for C12: on the store holding `aaaaaa`, with draws that spell
`aaaaaa` and then `bbbbbb`, the generator returns candidate `1`, `bbbbbb`. -/
theorem generateShortCode_first_free_witness :
    candidate stepSource 0 = "aaaaaa" ∧ candidate stepSource 1 = "bbbbbb"
    ∧ sampleStore.Exists "aaaaaa" = true ∧ sampleStore.Exists "bbbbbb" = false
    ∧ generateShortCode memoryURLStorage 2 stepSource sampleStore
        = some (candidate stepSource 1, rand.after (6 * (1 + 1)) stepSource, sampleStore) :=
  ⟨by decide, by decide, by decide, by decide,
    generateShortCode_first_free.2.2.2.1 2 stepSource sampleStore 1 (by decide) (by decide)
      (by decide)⟩

end GeneratorClaims

/-! ## Concurrent saves -/

namespace UrlService

namespace storage

open models

theorem mem_keys_set {V : Type} (m : GoMap V) (k k2 : String) (v : V) :
    k2 ∈ (m.set k v).keys ↔ k2 = k ∨ k2 ∈ m.keys := by
  rw [GoMap.keys_set]
  by_cases h : k ∈ m.keys
  · simp only [h, if_true]
    constructor
    · exact Or.inr
    · rintro (e | e)
      · rw [e]; exact h
      · exact e
  · simp only [h, if_false, List.mem_append, List.mem_singleton]
    constructor
    · rintro (e | e)
      · exact Or.inr e
      · exact Or.inl e
    · rintro (e | e)
      · exact Or.inr e
      · exact Or.inl e

theorem Shared.Inv_new (calls : List (URL × Time)) : Shared.Inv calls Shared.new where
  free := fun _ _ => rfl
  excl := fun i j h _ => by simp [Shared.new, Phase.critical] at h
  snap := fun i m h => by simp [Shared.new] at h
  nodup := by simp [Shared.new, NewMemoryStorage, GoMap.keys]
  keys := fun k => by simp [Shared.new, NewMemoryStorage, GoMap.keys, Phase.wrote]
  found := fun i url now _ h => by simp [Shared.new, Phase.wrote] at h

/-- Taking the free lock keeps the invariant. -/
theorem Shared.Inv_lock (calls : List (URL × Time)) (sys : Shared) (i : Nat)
    (h : Shared.Inv calls sys) (hp : sys.phase i = Phase.start) (hl : sys.locked = false) :
    Shared.Inv calls
      { sys with locked := true, phase := Function.update sys.phase i Phase.locked } := by
  have hw : ∀ a, (Function.update sys.phase i Phase.locked a).wrote = (sys.phase a).wrote := by
    intro a
    by_cases ha : a = i
    · subst ha; simp [hp, Phase.wrote]
    · simp [Function.update_noteq ha]
  refine ⟨fun h0 => by simp at h0, ?_, ?_, h.nodup, ?_, ?_⟩
  · intro a b ha hb
    simp only at ha hb
    by_cases hai : a = i
    · by_cases hbi : b = i
      · rw [hai, hbi]
      · rw [Function.update_noteq hbi] at hb
        rw [h.free hl b] at hb
        cases hb
    · rw [Function.update_noteq hai] at ha
      rw [h.free hl a] at ha
      cases ha
  · intro a m ha
    simp only at ha ⊢
    by_cases hai : a = i
    · subst hai; simp at ha
    · rw [Function.update_noteq hai] at ha
      exact h.snap a m ha
  · intro k
    simp only [hw]
    exact h.keys k
  · intro a url now hc ha
    simp only [hw] at ha
    exact h.found a url now hc ha

/-- Reading the map under the lock keeps the invariant. -/
theorem Shared.Inv_load (calls : List (URL × Time)) (sys : Shared) (i : Nat)
    (h : Shared.Inv calls sys) (hp : sys.phase i = Phase.locked) :
    Shared.Inv calls
      { sys with phase := Function.update sys.phase i (Phase.loaded sys.store.urls) } := by
  have hw : ∀ a, (Function.update sys.phase i (Phase.loaded sys.store.urls) a).wrote
      = (sys.phase a).wrote := by
    intro a
    by_cases ha : a = i
    · subst ha; simp [hp, Phase.wrote]
    · simp [Function.update_noteq ha]
  have hcr : ∀ a, (Function.update sys.phase i (Phase.loaded sys.store.urls) a).critical
      = (sys.phase a).critical := by
    intro a
    by_cases ha : a = i
    · subst ha; simp [hp, Phase.critical]
    · simp [Function.update_noteq ha]
  refine ⟨?_, ?_, ?_, h.nodup, ?_, ?_⟩
  · intro h0 a
    simp only [hcr]
    exact h.free h0 a
  · intro a b ha hb
    simp only [hcr] at ha hb
    exact h.excl a b ha hb
  · intro a m ha
    simp only at ha ⊢
    by_cases hai : a = i
    · subst hai
      simp only [Function.update_same, Phase.loaded.injEq] at ha
      exact ha.symm
    · rw [Function.update_noteq hai] at ha
      exact h.snap a m ha
  · intro k
    simp only [hw]
    exact h.keys k
  · intro a url now hc ha
    simp only [hw] at ha
    exact h.found a url now hc ha

/-- Releasing the lock keeps the invariant. -/
theorem Shared.Inv_unlock (calls : List (URL × Time)) (sys : Shared) (i : Nat)
    (h : Shared.Inv calls sys) (hp : sys.phase i = Phase.stored) :
    Shared.Inv calls
      { sys with locked := false, phase := Function.update sys.phase i Phase.finished } := by
  have hw : ∀ a, (Function.update sys.phase i Phase.finished a).wrote = (sys.phase a).wrote := by
    intro a
    by_cases ha : a = i
    · subst ha; simp [hp, Phase.wrote]
    · simp [Function.update_noteq ha]
  have hi : (sys.phase i).critical = true := by simp [hp, Phase.critical]
  have hnone : ∀ a, (Function.update sys.phase i Phase.finished a).critical = false := by
    intro a
    by_cases ha : a = i
    · subst ha; simp [Phase.critical]
    · rw [Function.update_noteq ha]
      cases hc : (sys.phase a).critical with
      | false => rfl
      | true => exact absurd (h.excl a i hc hi) ha
  refine ⟨fun _ a => hnone a, ?_, ?_, h.nodup, ?_, ?_⟩
  · intro a b ha _
    simp only at ha
    rw [hnone a] at ha
    cases ha
  · intro a m ha
    simp only at ha ⊢
    by_cases hai : a = i
    · subst hai; simp at ha
    · rw [Function.update_noteq hai] at ha
      exact h.snap a m ha
  · intro k
    simp only [hw]
    exact h.keys k
  · intro a url now hc ha
    simp only [hw] at ha
    exact h.found a url now hc ha

/-- Writing the map under the lock keeps the invariant: the map that was read
is still the map, so nothing is lost, and the codes being distinct, no other
caller's record is replaced. -/
theorem Shared.Inv_store (calls : List (URL × Time)) (sys : Shared) (i : Nat) (url : URL)
    (now : Time) (m : GoMap URL)
    (hd : ∀ (a b : Nat) (u : URL) (n : Time) (v : URL) (t : Time),
      calls[a]? = some (u, n) → calls[b]? = some (v, t) →
      u.ShortCode = v.ShortCode → a = b)
    (h : Shared.Inv calls sys) (hc : calls[i]? = some (url, now))
    (hp : sys.phase i = Phase.loaded m) :
    Shared.Inv calls
      { sys with store := (MemoryStorage.Save ⟨m⟩ url now).2,
                 phase := Function.update sys.phase i Phase.stored } := by
  have hm : m = sys.store.urls := h.snap i m hp
  subst hm
  have hi : (sys.phase i).critical = true := by simp [hp, Phase.critical]
  have hiw : (sys.phase i).wrote = false := by simp [hp, Phase.wrote]
  have hcr : ∀ a, (Function.update sys.phase i Phase.stored a).critical
      = (sys.phase a).critical := by
    intro a
    by_cases ha : a = i
    · subst ha; simp [hp, Phase.critical]
    · simp [Function.update_noteq ha]
  have hst : (MemoryStorage.Save ⟨sys.store.urls⟩ url now).2.urls
      = sys.store.urls.set url.ShortCode (stamp url now) := by
    simp [MemoryStorage.Save, stamp_ShortCode]
  refine ⟨?_, ?_, ?_, ?_, ?_, ?_⟩
  · intro h0 a
    simp only [hcr]
    exact h.free h0 a
  · intro a b ha hb
    simp only [hcr] at ha hb
    exact h.excl a b ha hb
  · intro a m2 ha
    simp only at ha
    by_cases hai : a = i
    · subst hai; simp at ha
    · rw [Function.update_noteq hai] at ha
      have hca : (sys.phase a).critical = true := by simp [ha, Phase.critical]
      exact absurd (h.excl a i hca hi) hai
  · simp only [hst]
    exact GoMap.nodup_keys_set _ _ _ h.nodup
  · intro k
    simp only [hst]
    rw [mem_keys_set, h.keys k]
    constructor
    · rintro (e | ⟨a, u, n, hca, hwa, hk⟩)
      · refine ⟨i, url, now, hc, ?_, e.symm⟩
        simp [Phase.wrote]
      · refine ⟨a, u, n, hca, ?_, hk⟩
        have hai : a ≠ i := by
          intro e
          rw [e, hiw] at hwa
          cases hwa
        rw [Function.update_noteq hai]
        exact hwa
    · rintro ⟨a, u, n, hca, hwa, hk⟩
      by_cases hai : a = i
      · subst hai
        rw [hc] at hca
        injection hca with e
        injection e with e1 e2
        subst e1
        exact Or.inl hk.symm
      · rw [Function.update_noteq hai] at hwa
        exact Or.inr ⟨a, u, n, hca, hwa, hk⟩
  · intro a u n hca hwa
    simp only [hst]
    simp only at hwa
    by_cases hai : a = i
    · subst hai
      rw [hc] at hca
      injection hca with e
      injection e with e1 e2
      subst e1; subst e2
      exact GoMap.get_set_self _ _ _
    · rw [Function.update_noteq hai] at hwa
      have hne : url.ShortCode ≠ u.ShortCode := by
        intro e
        exact hai (hd a i u n url now hca hc e.symm)
      rw [GoMap.get_set_ne _ _ hne]
      exact h.found a u n hca hwa

/-- Every step of every caller keeps the invariant. -/
theorem Shared.Inv_step (calls : List (URL × Time)) (sys : Shared) (i : Nat)
    (hd : ∀ (a b : Nat) (u : URL) (n : Time) (v : URL) (t : Time),
      calls[a]? = some (u, n) → calls[b]? = some (v, t) →
      u.ShortCode = v.ShortCode → a = b)
    (h : Shared.Inv calls sys) : Shared.Inv calls (sys.step calls i) := by
  unfold Shared.step
  cases hc : calls[i]? with
  | none => exact h
  | some call =>
    obtain ⟨url, now⟩ := call
    cases hp : sys.phase i with
    | start =>
      by_cases hl : sys.locked = true
      · simp only [hl, if_true]
        exact h
      · simp only [hl, Bool.false_eq_true, if_false]
        exact Shared.Inv_lock calls sys i h hp (by simpa using hl)
    | locked => exact Shared.Inv_load calls sys i h hp
    | loaded m => exact Shared.Inv_store calls sys i url now m hd h hc hp
    | stored => exact Shared.Inv_unlock calls sys i h hp
    | finished => exact h

theorem Shared.Inv_run (calls : List (URL × Time)) (sys : Shared) (sched : List Nat)
    (hd : ∀ (a b : Nat) (u : URL) (n : Time) (v : URL) (t : Time),
      calls[a]? = some (u, n) → calls[b]? = some (v, t) →
      u.ShortCode = v.ShortCode → a = b)
    (h : Shared.Inv calls sys) : Shared.Inv calls (sys.run calls sched) := by
  induction sched generalizing sys with
  | nil => exact h
  | cons i rest ih => exact ih _ (Shared.Inv_step calls sys i hd h)

/-- Records with pairwise distinct codes: equal codes, equal callers. -/
theorem distinct_codes (calls : List (URL × Time))
    (hcodes : (calls.map fun c => c.1.ShortCode).Nodup) :
    ∀ (a b : Nat) (u : URL) (n : Time) (v : URL) (t : Time),
      calls[a]? = some (u, n) → calls[b]? = some (v, t) →
      u.ShortCode = v.ShortCode → a = b := by
  intro a b u n v t ha hb e
  have hlen : a < (calls.map fun c => c.1.ShortCode).length := by
    obtain ⟨hl, _⟩ := List.getElem?_eq_some.mp ha
    simpa using hl
  apply List.getElem?_inj hlen hcodes
  rw [List.getElem?_map, List.getElem?_map, ha, hb]
  simp [e]

theorem Shared.run_append (calls : List (URL × Time)) (sys : Shared) (s1 s2 : List Nat) :
    sys.run calls (s1 ++ s2) = (sys.run calls s1).run calls s2 := by
  induction s1 generalizing sys with
  | nil => rfl
  | cons i rest ih => exact ih _

/-- What is in the map when every caller has finished. -/
theorem Shared.finished_store (calls : List (URL × Time)) (sys : Shared)
    (hcodes : (calls.map fun c => c.1.ShortCode).Nodup) (h : Shared.Inv calls sys)
    (hfin : ∀ i, i < calls.length → sys.phase i = Phase.finished) :
    sys.store.urls.length = calls.length
    ∧ ∀ c ∈ calls, sys.store.FindByShortCode c.1.ShortCode = .ok (stamp c.1 c.2) := by
  constructor
  · have hk : ∀ k, k ∈ sys.store.urls.keys ↔ k ∈ calls.map fun c => c.1.ShortCode := by
      intro k
      rw [h.keys k, List.mem_map]
      constructor
      · rintro ⟨i, url, now, hc, _, hk⟩
        exact ⟨(url, now), List.mem_iff_getElem?.mpr ⟨i, hc⟩, hk⟩
      · rintro ⟨c, hc, hk⟩
        obtain ⟨i, hi⟩ := List.mem_iff_getElem?.mp hc
        obtain ⟨hl, _⟩ := List.getElem?_eq_some.mp hi
        refine ⟨i, c.1, c.2, hi, ?_, hk⟩
        rw [hfin i hl]
        rfl
    have hperm := (List.perm_ext_iff_of_nodup h.nodup hcodes).mpr hk
    have hl := hperm.length_eq
    simpa [GoMap.keys] using hl
  · intro c hc
    obtain ⟨i, hi⟩ := List.mem_iff_getElem?.mp hc
    obtain ⟨hl, _⟩ := List.getElem?_eq_some.mp hi
    have hw : (sys.phase i).wrote = true := by rw [hfin i hl]; rfl
    have hg := h.found i c.1 c.2 hi hw
    simp [MemoryStorage.FindByShortCode, hg]

/-- A caller that finds the lock free and is given four steps in a row runs
its `Save` to the end. -/
theorem Shared.run_alone (calls : List (URL × Time)) (sys : Shared) (n : Nat) (url : URL)
    (now : Time) (hc : calls[n]? = some (url, now)) (hp : sys.phase n = Phase.start)
    (hl : sys.locked = false) :
    sys.run calls [n, n, n, n]
      = { locked := false, store := (sys.store.Save url now).2,
          phase := Function.update sys.phase n Phase.finished } := by
  simp [Shared.run, Shared.step, hc, hp, hl]

/-- The callers `0 .. n-1` running one after the other all finish. -/
theorem Shared.run_sequential (calls : List (URL × Time)) (n : Nat) (hn : n ≤ calls.length) :
    (Shared.new.run calls (sequential n)).locked = false
    ∧ ∀ i, (Shared.new.run calls (sequential n)).phase i
        = if i < n then Phase.finished else Phase.start := by
  induction n with
  | zero => exact ⟨rfl, fun i => by simp [sequential, Shared.run, Shared.new]⟩
  | succ n ih =>
    obtain ⟨hl, hph⟩ := ih (by omega)
    have hlt : n < calls.length := by omega
    have hc : calls[n]? = some ((calls[n]).1, (calls[n]).2) := List.getElem?_eq_getElem hlt
    have hp : (Shared.new.run calls (sequential n)).phase n = Phase.start := by
      rw [hph n]; simp
    rw [sequential, Shared.run_append, Shared.run_alone calls _ n _ _ hc hp hl]
    refine ⟨rfl, fun i => ?_⟩
    simp only
    by_cases hi : i = n
    · subst hi; simp
    · rw [Function.update_noteq hi, hph i]
      by_cases h1 : i < n
      · have h2 : i < n + 1 := by omega
        simp [h1, h2]
      · have h2 : ¬ i < n + 1 := by omega
        simp [h1, h2]

end storage

end UrlService

/-! ## Claim on concurrent saves -/

section ConcurrencyClaims

open UrlService.models UrlService.storage

/-- Claim C11.  Let `N` callers each run `Save` of one record on one new
in-memory URL store, the codes of the records being pairwise distinct, their
steps (take the lock, read the map, write the map, release the lock)
interleaved by any schedule.  When all callers have finished, `FindAll`
returns `N` records and `FindByShortCode` succeeds for each of the `N` codes,
with the record saved under it: no update is lost.  Such schedules exist for
every `N`: the callers running one after the other all finish. -/
theorem concurrent_saves_all_retrievable (calls : List (URL × Time))
    (hcodes : (calls.map fun c => c.1.ShortCode).Nodup) :
    (∀ sched : List Nat,
        (∀ i, i < calls.length → (Shared.new.run calls sched).phase i = Phase.finished) →
        ∃ all : List URL, (Shared.new.run calls sched).store.FindAll = .ok all
          ∧ all.length = calls.length
          ∧ ∀ c ∈ calls, (Shared.new.run calls sched).store.FindByShortCode c.1.ShortCode
              = .ok (stamp c.1 c.2))
    ∧ (∀ i, i < calls.length →
        (Shared.new.run calls (sequential calls.length)).phase i = Phase.finished) := by
  constructor
  · intro sched hfin
    have hinv := Shared.Inv_run calls Shared.new sched (distinct_codes calls hcodes)
      (Shared.Inv_new calls)
    obtain ⟨hlen, hfind⟩ := Shared.finished_store calls _ hcodes hinv hfin
    refine ⟨_, rfl, ?_, hfind⟩
    rw [List.length_map]
    exact hlen
  · intro i hi
    rw [(Shared.run_sequential calls calls.length (Nat.le_refl _)).2 i]
    simp [hi]

/-- Witness for C11: three callers under a schedule in which two of them find
the lock held and have to wait. -/
theorem concurrent_saves_all_retrievable_witness :
    (Shared.new.run sampleCalls sampleSchedule).store.urls.keys = ["bbbbbb", "cccccc", "aaaaaa"]
    ∧ ∃ all : List URL, (Shared.new.run sampleCalls sampleSchedule).store.FindAll = .ok all
        ∧ all.length = sampleCalls.length
        ∧ ∀ c ∈ sampleCalls,
            (Shared.new.run sampleCalls sampleSchedule).store.FindByShortCode c.1.ShortCode
              = .ok (stamp c.1 c.2) :=
  ⟨by decide,
    (concurrent_saves_all_retrievable sampleCalls (by decide)).1 sampleSchedule (by decide)⟩

end ConcurrencyClaims

/-- The lock is what keeps updates: were two callers inside the assignment at
once, both having read the empty map, the second write would replace the
first, and only one of the two records would be left. -/
theorem lost_update_without_exclusion :
    ((UrlService.storage.Shared.run sampleCalls
        { locked := true, store := UrlService.storage.NewMemoryStorage,
          phase := Function.update
            (Function.update (fun _ => UrlService.storage.Phase.start) 0
              (UrlService.storage.Phase.loaded []))
            1 (UrlService.storage.Phase.loaded []) }
        [0, 1]).store.urls.keys) = ["bbbbbb"] := by
  decide

/-! ## Saved records on the networked URL store -/

section StabilityClaims

open redis UrlService.models UrlService.storage

theorem urlKey_inj (c1 c2 : String) : urlKeyPrefix ++ c1 = urlKeyPrefix ++ c2 ↔ c1 = c2 := by
  constructor
  · intro h
    have hd := congrArg String.data h
    rw [String.data_append, String.data_append] at hd
    exact String.ext (List.append_cancel_left hd)
  · intro h
    rw [h]

/-- What `FindByShortCode` returns depends on the remote store only through the
blob under the key of the code, and on the outcome of its one call. -/
theorem RedisFind_congr (js : json.Codec URL) (s1 s2 : Client) (c : String)
    (hs : s1.strs.get (urlKeyPrefix ++ c) = s2.strs.get (urlKeyPrefix ++ c))
    (hf : s1.faults = s2.faults) :
    (RedisStorage.FindByShortCode js s1 c).1 = (RedisStorage.FindByShortCode js s2 c).1 := by
  obtain ⟨strs1, sets1, lists1, faults1⟩ := s1
  obtain ⟨strs2, sets2, lists2, faults2⟩ := s2
  simp only at hs hf
  subst hf
  unfold RedisStorage.FindByShortCode
  rcases faults1 with _ | ⟨_ | m1, rest⟩ <;>
    simp only [Client.Get, Client.next, hs] <;>
    cases GoMap.get strs2 (urlKeyPrefix ++ c) with
    | none => rfl
    | some v => cases hu : js.Unmarshal v <;> simp [hu]

/-- `Save` of a record writes no key but the one of the record's code, whether
it succeeds or fails on the way. -/
theorem RedisSave_other (js : json.Codec URL) (s : Client) (r : URL) (now : Time) (c : String)
    (h : r.ShortCode ≠ c) :
    (RedisStorage.Save js s r now).2.strs.get (urlKeyPrefix ++ c)
      = s.strs.get (urlKeyPrefix ++ c) := by
  have hk : urlKeyPrefix ++ r.ShortCode ≠ urlKeyPrefix ++ c := fun e => h ((urlKey_inj _ _).mp e)
  obtain ⟨strs, sets, lists, faults⟩ := s
  cases hm : js.Marshal (stamp r now) with
  | error e => simp [RedisStorage.Save, hm]
  | ok data =>
    rcases faults with _ | ⟨_ | m1, _ | ⟨_ | m2, rest⟩⟩ <;>
      simp [RedisStorage.Save, hm, Client.Set, Client.SAdd, Client.next, stamp_ShortCode,
        GoMap.get_set_ne _ _ hk]

/-- A `Save` that succeeds has put the marshalled record under the key of its
code. -/
theorem RedisSave_written (js : json.Codec URL) (s : Client) (r : URL) (now : Time)
    (d : String) (hok : (RedisStorage.Save js s r now).1 = .ok ())
    (hm : js.Marshal (stamp r now) = .ok d) :
    (RedisStorage.Save js s r now).2.strs.get (urlKeyPrefix ++ r.ShortCode) = some d := by
  obtain ⟨strs, sets, lists, faults⟩ := s
  unfold RedisStorage.Save at hok ⊢
  rcases faults with _ | ⟨_ | m1, _ | ⟨_ | m2, rest⟩⟩ <;>
    simp [hm, Client.Set, Client.SAdd, Client.next, stamp_ShortCode, GoMap.get_set_self]
      at hok ⊢

/-- A fetch that goes through returns what the blob under the key reads as. -/
theorem RedisFind_hit (js : json.Codec URL) (s : Client) (c d : String) (u : URL)
    (hn : s.next.1 = none) (hg : s.strs.get (urlKeyPrefix ++ c) = some d)
    (hu : js.Unmarshal d = .ok u) :
    (RedisStorage.FindByShortCode js s c).1 = .ok u := by
  obtain ⟨strs, sets, lists, faults⟩ := s
  simp only at hg
  unfold RedisStorage.FindByShortCode
  rcases faults with _ | ⟨_ | m1, rest⟩ <;>
    simp [Client.Get, Client.next, hg, hu] at hn ⊢

theorem RedisFind_strs (js : json.Codec URL) (s : Client) (c : String) :
    (RedisStorage.FindByShortCode js s c).2.strs = s.strs := by
  obtain ⟨strs, sets, lists, faults⟩ := s
  unfold RedisStorage.FindByShortCode
  rcases faults with _ | ⟨_ | m1, rest⟩ <;>
    simp only [Client.Get, Client.next] <;>
    cases GoMap.get strs (urlKeyPrefix ++ c) with
    | none => rfl
    | some v => cases hu : js.Unmarshal v <;> simp [hu]

theorem RedisFindEach_strs (js : json.Codec URL) (s : Client) (l : List String) :
    (RedisStorage.findEach js s l).2.strs = s.strs := by
  induction l generalizing s with
  | nil => rfl
  | cons c rest ih =>
    rw [RedisStorage.findEach]
    have hf := RedisFind_strs js s c
    cases hx : RedisStorage.FindByShortCode js s c with
    | mk res s1 =>
      rw [hx] at hf
      simp only at hf
      cases res with
      | error e => simp only; rw [ih, hf]
      | ok url => simp only; rw [ih, hf]

theorem RedisFindAll_strs (js : json.Codec URL) (s : Client) :
    (RedisStorage.FindAll js s).2.strs = s.strs := by
  unfold RedisStorage.FindAll
  cases hn : s.next.1 with
  | some m =>
    obtain ⟨strs, sets, lists, faults⟩ := s
    rcases faults with _ | ⟨_ | m1, rest⟩ <;> simp [Client.SMembers, Client.next] at hn ⊢
  | none =>
    obtain ⟨strs, sets, lists, faults⟩ := s
    rcases faults with _ | ⟨_ | m1, rest⟩ <;>
      simp [Client.SMembers, Client.next, RedisFindEach_strs] at hn ⊢

/-- Claim C9, as the code has it.  `Save` upserts: after saving `r`, the
record found under `r`'s code is `r` (with its creation time filled in when
unset), whatever was there before.  Every other operation leaves the record
found under a code `c` as it was: a save under a code other than `c`, and the
reads `FindByShortCode`, `FindAll` and `Exists`, which do not change the
store.  This holds of the in-memory store and of the networked store.  On the
networked store, a `Save` that succeeds is followed by a fetch of the saved
record when the fetch goes through and the coding reads back what it wrote;
and whatever the outcomes `f` of the backend calls to come, what
`FindByShortCode c` returns is the same before and after a `Save` under
another code (failed or not) and before and after each read. -/
theorem saved_record_stable (s : MemoryStorage) (c : String) :
    (∀ (r : URL) (now : Time),
        (s.Save r now).2.FindByShortCode r.ShortCode = .ok (stamp r now))
    ∧ (∀ (r : URL) (now : Time), r.ShortCode ≠ c →
        (s.Save r now).2.FindByShortCode c = s.FindByShortCode c)
    ∧ (∀ c2 : String, (memoryURLStorage.FindByShortCode s c2).2.FindByShortCode c
        = s.FindByShortCode c)
    ∧ (memoryURLStorage.FindAll s).2.FindByShortCode c = s.FindByShortCode c
    ∧ (∀ c2 : String, (memoryURLStorage.Exists s c2).2.FindByShortCode c
        = s.FindByShortCode c)
    ∧ (∀ (js : json.Codec URL) (cl : Client),
        (∀ (r : URL) (now : Time) (d : String),
          (RedisStorage.Save js cl r now).1 = .ok () →
          js.Marshal (stamp r now) = .ok d →
          js.Unmarshal d = .ok (stamp r now) →
          (RedisStorage.Save js cl r now).2.next.1 = none →
          (RedisStorage.FindByShortCode js (RedisStorage.Save js cl r now).2 r.ShortCode).1
            = .ok (stamp r now))
        ∧ (∀ (r : URL) (now : Time) (f : List (Option String)), r.ShortCode ≠ c →
            (RedisStorage.FindByShortCode js
              { (RedisStorage.Save js cl r now).2 with faults := f } c).1
              = (RedisStorage.FindByShortCode js { cl with faults := f } c).1)
        ∧ (∀ (c2 : String) (f : List (Option String)),
            (RedisStorage.FindByShortCode js
              { (RedisStorage.FindByShortCode js cl c2).2 with faults := f } c).1
              = (RedisStorage.FindByShortCode js { cl with faults := f } c).1)
        ∧ (∀ f : List (Option String),
            (RedisStorage.FindByShortCode js
              { (RedisStorage.FindAll js cl).2 with faults := f } c).1
              = (RedisStorage.FindByShortCode js { cl with faults := f } c).1)
        ∧ (∀ (c2 : String) (f : List (Option String)),
            (RedisStorage.FindByShortCode js
              { (RedisStorage.Exists cl c2).2 with faults := f } c).1
              = (RedisStorage.FindByShortCode js { cl with faults := f } c).1)) := by
  refine ⟨fun r now => MemoryStorage.find_save_self s r now,
    fun r now h => MemoryStorage.find_save_ne s r now h,
    fun _ => rfl, rfl, fun _ => rfl, fun js cl => ⟨?_, ?_, ?_, ?_, ?_⟩⟩
  · intro r now d hok hm hu hn
    exact RedisFind_hit js _ _ d _ hn (RedisSave_written js cl r now d hok hm) hu
  · intro r now f h
    exact RedisFind_congr js _ _ c (RedisSave_other js cl r now c h) rfl
  · intro c2 f
    refine RedisFind_congr js _ _ c ?_ rfl
    simp only [RedisFind_strs]
  · intro f
    refine RedisFind_congr js _ _ c ?_ rfl
    simp only [RedisFindAll_strs]
  · intro c2 f
    refine RedisFind_congr js _ _ c ?_ rfl
    simp only [(RedisStorage_Exists_contents cl c2).1]

/-- Witness for C9: on the in-memory store, saving a record under `bbbbbb`
leaves what is found under `aaaaaa`; on the networked store, saving `otherURL`
over the blob under `url:aaaaaa` is followed by a fetch of `otherURL`, and
saving a record under `bbbbbb` leaves what is found under `aaaaaa`. -/
theorem saved_record_stable_witness :
    (sampleStore.Save ⟨"bbbbbb", "bbbbbb", "https://b.example", 6⟩ 7).2.FindByShortCode "aaaaaa"
      = sampleStore.FindByShortCode "aaaaaa"
    ∧ (RedisStorage.FindByShortCode tableURLCodec
        (RedisStorage.Save tableURLCodec (sampleClient []) otherURL 9).2 otherURL.ShortCode).1
        = .ok (stamp otherURL 9)
    ∧ (RedisStorage.FindByShortCode tableURLCodec
        { (RedisStorage.Save tableURLCodec (sampleClient [])
            ⟨"bbbbbb", "bbbbbb", "https://b.example", 6⟩ 7).2 with faults := [] } "aaaaaa").1
        = (RedisStorage.FindByShortCode tableURLCodec
            { sampleClient [] with faults := [] } "aaaaaa").1 :=
  ⟨(saved_record_stable sampleStore "aaaaaa").2.1 ⟨"bbbbbb", "bbbbbb", "https://b.example", 6⟩ 7
      (by decide),
    ((saved_record_stable sampleStore "aaaaaa").2.2.2.2.2 tableURLCodec (sampleClient [])).1
      otherURL 9 "https://b.example" rfl rfl rfl rfl,
    ((saved_record_stable sampleStore "aaaaaa").2.2.2.2.2 tableURLCodec (sampleClient [])).2.1
      ⟨"bbbbbb", "bbbbbb", "https://b.example", 6⟩ 7 [] (by decide)⟩

end StabilityClaims
